import Mathlib

/-!
Remote NSP directory: header retrieval and entry lookup.

A shallow embedding of `source/install/remote_nsp.cpp` (namespace
`tin::install::nsp`).  The header buffer `m_headerBytes` is a list of octets,
a pointer into it is an offset (`none` is `nullptr`), `size_t`/`u64`
arithmetic is reduced modulo `2 ^ 64`, and a `THROW_FORMAT` is an
`Except.error`.  A read through a pointer that leaves the buffer, or through
`nullptr`, has no defined behaviour in C++; the embedding reports it as an
error of its own so that no theorem silently depends on it.  The two thread
bodies are embedded as functions of the answers the shared writer gives them,
returning the sequence of writer calls they make; the answers are arbitrary,
which stands for every interleaving with the other thread.
-/

set_option maxRecDepth 100000

namespace tin.install.nsp

/-! ## Machine words and the header buffer -/

/-- One octet (`u8`). -/
abbrev Byte := Fin 256

/-- Modulus of `size_t` and `u64` on the 64-bit target. -/
def SIZE_MOD : Nat := 18446744073709551616

/-- A pointer into `m_headerBytes`: the offset from `m_headerBytes.data()`,
or `none` for `nullptr`. -/
abbrev Ptr := Option Nat

/-- Outcomes other than a normal return. -/
inductive Error where
  /-- Thrown by `THROW_FORMAT("Cannot retrieve header as header bytes are
  empty. ...")` and `THROW_FORMAT("Cannot get data offset as header is empty.
  ...")`. -/
  | NotReady
  /-- Thrown by `THROW_FORMAT("File entry index is out of bounds")`. -/
  | OutOfRange
  /-- Thrown by `THROW_FORMAT("Header bytes is too small to get file entry!")`. -/
  | Corrupt
  /-- A blocking ranged read that could not deliver the requested bytes. -/
  | Transport
  /-- An access through a pointer at bytes outside `m_headerBytes`. -/
  | OutOfBoundsAccess
  /-- The exception `std::out_of_range` of `std::string::substr`. -/
  | StdOutOfRange
  /-- A read through `nullptr`. -/
  | NullDeref
  deriving DecidableEq, Repr

deriving instance DecidableEq for Except

/-- Sizes of the two packed structures, `sizeof(PFS0BaseHeader)` and
`sizeof(PFS0FileEntry)`.  Their declarations are in a header that is not among
the sources, so both sizes are parameters. -/
structure Layout where
  /-- The value of `sizeof(PFS0BaseHeader)`. -/
  headerFixedSize : Nat
  /-- The value of `sizeof(PFS0FileEntry)`. -/
  entrySize : Nat
  deriving DecidableEq, Repr

/-- The sizes can hold the fields the format lists (4+4+4 bytes, and 8+8+4
bytes) and are themselves 32-bit quantities. -/
def Layout.Valid (L : Layout) : Prop :=
  12 ≤ L.headerFixedSize ∧ L.headerFixedSize < 4294967296 ∧
  20 ≤ L.entrySize ∧ L.entrySize < 4294967296

instance (L : Layout) : Decidable L.Valid := by
  unfold Layout.Valid; infer_instance

/-- A layout with a 16-byte base header and 24-byte entries. -/
def Layout.packed : Layout := ⟨16, 24⟩

/-- Value of a little-endian byte sequence. -/
def leValue : List Byte → Nat
  | [] => 0
  | b :: bs => b.val + 256 * leValue bs

/-- Little-endian encoding of `x` on `w` bytes (the low `8 * w` bits). -/
def toLE : Nat → Nat → List Byte
  | 0, _ => []
  | w + 1, x => ⟨x % 256, Nat.mod_lt x (by decide)⟩ :: toLE w (x / 256)

/-- Read of a `w`-byte little-endian field at offset `fieldOff` of the
structure `p` points to. -/
def readField (buf : List Byte) (p : Ptr) (fieldOff w : Nat) : Except Error Nat :=
  match p with
  | none => .error .NullDeref
  | some a =>
    if a + fieldOff + w ≤ buf.length then
      .ok (leValue ((buf.drop (a + fieldOff)).take w))
    else
      .error .OutOfBoundsAccess

/-- Modelled from the spec: the field `numFiles` of `PFS0BaseHeader`, whose
declaration is not among the sources: "magic tag (4 bytes), file count (4-byte
unsigned), string-table byte size (4-byte unsigned)", little-endian. -/
def PFS0BaseHeader.numFiles (buf : List Byte) (p : Ptr) : Except Error Nat :=
  readField buf p 4 4

/-- Modelled from the spec: the field `stringTableSize` of `PFS0BaseHeader`,
the 4-byte unsigned value after the file count. -/
def PFS0BaseHeader.stringTableSize (buf : List Byte) (p : Ptr) : Except Error Nat :=
  readField buf p 8 4

/-- Modelled from the spec: the field `dataOffset` of `PFS0FileEntry`, whose
declaration is not among the sources: "data offset (8-byte unsigned), byte size
(8-byte unsigned), string-table offset (4-byte unsigned)", little-endian. -/
def PFS0FileEntry.dataOffset (buf : List Byte) (p : Ptr) : Except Error Nat :=
  readField buf p 0 8

/-- Modelled from the spec: the field `fileSize` of `PFS0FileEntry`, the
8-byte unsigned value after the data offset. -/
def PFS0FileEntry.fileSize (buf : List Byte) (p : Ptr) : Except Error Nat :=
  readField buf p 8 8

/-- Modelled from the spec: the field `stringTableOffset` of `PFS0FileEntry`,
the 4-byte unsigned value after the byte size. -/
def PFS0FileEntry.stringTableOffset (buf : List Byte) (p : Ptr) : Except Error Nat :=
  readField buf p 16 4

/-! ## The object state -/

/-- Modelled from the spec: the ranged-read collaborator `m_download`
(`tin::network::HTTPDownload`), whose code is not among the sources.  It holds
the bytes of the remote resource and records every range it was asked for,
oldest first. -/
structure HTTPDownload where
  /-- Content of the remote resource. -/
  remote : List Byte
  /-- The `(offset, size)` pairs of the blocking reads issued so far. -/
  requests : List (Nat × Nat)
  /-- The `(offset, size)` pairs of the streaming reads issued so far. -/
  streams : List (Nat × Nat)
  deriving DecidableEq, Repr

/-- The members of `RemoteNSP`. -/
structure RemoteNSP where
  /-- The member `m_download`. -/
  m_download : HTTPDownload
  /-- The member `m_headerBytes`. -/
  m_headerBytes : List Byte
  deriving DecidableEq, Repr

/-! ## Accessors -/

/-- The method `RemoteNSP::GetBaseHeader`: throws when the buffer is empty,
else returns `m_headerBytes.data()` reinterpreted. -/
def GetBaseHeader (s : RemoteNSP) : Except Error Ptr :=
  if s.m_headerBytes.isEmpty then
    .error .NotReady
  else
    .ok (some 0)

/-- The method `RemoteNSP::GetDataOffset`: throws when the buffer is empty,
else returns `m_headerBytes.size()` (a `size_t` returned as `u64`, the same
width). -/
def GetDataOffset (s : RemoteNSP) : Except Error Nat :=
  if s.m_headerBytes.isEmpty then
    .error .NotReady
  else
    .ok s.m_headerBytes.length

/-- The method `RemoteNSP::GetFileEntry`.  `index` is converted to `size_t`
before the multiplication. -/
def GetFileEntry (L : Layout) (s : RemoteNSP) (index : Nat) : Except Error Ptr := do
  let hdr ← GetBaseHeader s
  let numFiles ← PFS0BaseHeader.numFiles s.m_headerBytes hdr
  if index ≥ numFiles then
    .error .OutOfRange
  else
    let fileEntryOffset := (L.headerFixedSize + index * L.entrySize % SIZE_MOD) % SIZE_MOD
    if s.m_headerBytes.length < (fileEntryOffset + L.entrySize) % SIZE_MOD then
      .error .Corrupt
    else
      .ok (some fileEntryOffset)

/-! ## Header retrieval -/

/-- The operation `std::vector<u8>::resize(n, fill)`. -/
def resize (buf : List Byte) (n : Nat) (fill : Byte) : List Byte :=
  buf.take n ++ List.replicate (n - buf.length) fill

/-- Modelled from the spec: `HTTPDownload::BufferDataRange(dest, offset, size,
nullptr)`, whose code is not among the sources: "blocking, fully fills `dest`
or fails".  `dest` is `m_headerBytes.data() + destOff`; the call returns the
buffer with the `size` bytes at `destOff` replaced by the remote bytes
`[offset, offset + size)`. -/
def BufferDataRange (d : HTTPDownload) (buf : List Byte) (destOff offset size : Nat) :
    Except Error (List Byte × HTTPDownload) :=
  if offset + size ≤ d.remote.length then
    if destOff + size ≤ buf.length then
      .ok (buf.take destOff ++ (d.remote.drop offset).take size ++ buf.drop (destOff + size),
           { d with requests := d.requests ++ [(offset, size)] })
    else
      .error .OutOfBoundsAccess
  else
    .error .Transport

/-- The method `RemoteNSP::RetrieveHeader` (the debug output is left out). -/
def RetrieveHeader (L : Layout) (s : RemoteNSP) : Except Error RemoteNSP := do
  let bytes := resize s.m_headerBytes L.headerFixedSize 0
  let (bytes, download) ← BufferDataRange s.m_download bytes 0 0 L.headerFixedSize
  let s : RemoteNSP := { m_download := download, m_headerBytes := bytes }
  let hdr ← GetBaseHeader s
  let numFiles ← PFS0BaseHeader.numFiles s.m_headerBytes hdr
  let hdr ← GetBaseHeader s
  let stringTableSize ← PFS0BaseHeader.stringTableSize s.m_headerBytes hdr
  let remainingHeaderSize := (numFiles * L.entrySize % SIZE_MOD + stringTableSize) % SIZE_MOD
  let bytes := resize s.m_headerBytes ((L.headerFixedSize + remainingHeaderSize) % SIZE_MOD) 0
  let (bytes, download) ←
    BufferDataRange s.m_download bytes L.headerFixedSize L.headerFixedSize remainingHeaderSize
  .ok { m_download := download, m_headerBytes := bytes }

/-! ## Names and lookups -/

/-- Bytes of an ASCII string literal. -/
def ascii (str : String) : List Byte :=
  str.toList.map fun c => Fin.ofNat c.toNat

/-- The character `'.'`. -/
def DOT : Byte := 46

/-- The value `std::string::npos`. -/
def NPOS : Nat := 18446744073709551615

/-- Construction of a `std::string` from a `const char*` into the buffer: the
bytes from the pointer up to the first zero byte.  Running off the end of the
buffer before a zero byte is an access outside it. -/
def cString (buf : List Byte) (p : Ptr) : Except Error (List Byte) :=
  match p with
  | none => .error .NullDeref
  | some a =>
    if (0 : Byte) ∈ buf.drop a then
      .ok ((buf.drop a).takeWhile fun b => b ≠ 0)
    else
      .error .OutOfBoundsAccess

/-- The operation `std::string::find` for a one-character pattern. -/
def find (str : List Byte) (c : Byte) : Nat :=
  if c ∈ str then str.indexOf c else NPOS

/-- The operation `std::string::substr(pos)`. -/
def substr (str : List Byte) (pos : Nat) : Except Error (List Byte) :=
  if pos > str.length then .error .StdOutOfRange else .ok (str.drop pos)

/-- The method `RemoteNSP::GetFileEntryName`: the pointer
`m_headerBytes.data() + stringTableStart + fileEntry->stringTableOffset`. -/
def GetFileEntryName (L : Layout) (s : RemoteNSP) (fileEntry : Ptr) : Except Error Ptr := do
  let hdr ← GetBaseHeader s
  let numFiles ← PFS0BaseHeader.numFiles s.m_headerBytes hdr
  let stringTableStart := (L.headerFixedSize + numFiles * L.entrySize % SIZE_MOD) % SIZE_MOD
  let stringTableOffset ← PFS0FileEntry.stringTableOffset s.m_headerBytes fileEntry
  .ok (some (stringTableStart + stringTableOffset))

/-- The `for` loop of `RemoteNSP::GetFileEntryByExtension`, from counter value
`i` with `fuel` iterations left (`numFiles - i`; the loop condition re-reads
`numFiles` from the buffer, which the loop does not change). -/
def GetFileEntryByExtension.loop (L : Layout) (s : RemoteNSP) (extension : List Byte) :
    Nat → Nat → Except Error Ptr
  | 0, _ => .ok none
  | fuel + 1, i => do
    let fileEntry ← GetFileEntry L s i
    let namePtr ← GetFileEntryName L s fileEntry
    let name ← cString s.m_headerBytes namePtr
    let foundExtension ← substr name ((find name DOT + 1) % SIZE_MOD)
    if foundExtension = extension then
      .ok fileEntry
    else
      GetFileEntryByExtension.loop L s extension fuel (i + 1)

/-- The method `RemoteNSP::GetFileEntryByExtension`; `none` is the `nullptr`
result. -/
def GetFileEntryByExtension (L : Layout) (s : RemoteNSP) (extension : List Byte) :
    Except Error Ptr := do
  let hdr ← GetBaseHeader s
  let numFiles ← PFS0BaseHeader.numFiles s.m_headerBytes hdr
  GetFileEntryByExtension.loop L s extension numFiles 0

/-- The `for` loop of `RemoteNSP::GetFileEntryByName`, from counter value `i`
with `fuel` iterations left (`numFiles - i`; the loop condition re-reads
`numFiles` from the buffer, which the loop does not change). -/
def GetFileEntryByName.loop (L : Layout) (s : RemoteNSP) (name : List Byte) :
    Nat → Nat → Except Error Ptr
  | 0, _ => .ok none
  | fuel + 1, i => do
    let fileEntry ← GetFileEntry L s i
    let namePtr ← GetFileEntryName L s fileEntry
    let foundName ← cString s.m_headerBytes namePtr
    if foundName = name then
      .ok fileEntry
    else
      GetFileEntryByName.loop L s name fuel (i + 1)

/-- The method `RemoteNSP::GetFileEntryByName`; `none` is the `nullptr` result. -/
def GetFileEntryByName (L : Layout) (s : RemoteNSP) (name : List Byte) : Except Error Ptr := do
  let hdr ← GetBaseHeader s
  let numFiles ← PFS0BaseHeader.numFiles s.m_headerBytes hdr
  GetFileEntryByName.loop L s name numFiles 0

/-- A content id (`NcmNcaId`): its bytes. -/
abbrev NcmNcaId := List Byte

/-- Lowercase hexadecimal digit of a value below 16. -/
def hexDigit (n : Nat) : Byte :=
  if n < 10 then Fin.ofNat (48 + n) else Fin.ofNat (87 + n)

/-- Modelled from the spec: `tin::util::GetNcaIdString`, whose code is not
among the sources: the "fixed-width binary identifier rendered as lowercase
hex", two digits per byte. -/
def GetNcaIdString (ncaId : NcmNcaId) : List Byte :=
  ncaId.flatMap fun b => [hexDigit (b.val / 16), hexDigit (b.val % 16)]

/-- The method `RemoteNSP::GetFileEntryByNcaId`. -/
def GetFileEntryByNcaId (L : Layout) (s : RemoteNSP) (ncaId : NcmNcaId) : Except Error Ptr := do
  let ncaIdStr := GetNcaIdString ncaId
  let fileEntry ← GetFileEntryByName L s (ncaIdStr ++ ascii ".nca")
  if fileEntry = none then
    let fileEntry ← GetFileEntryByName L s (ncaIdStr ++ ascii ".cnmt.nca")
    if fileEntry = none then
      .ok none
    else
      .ok fileEntry
  else
    .ok fileEntry

/-! ## Streaming set-up -/

/-- Modelled from the spec: what the constructor call
`BufferedPlaceholderWriter(&contentStorage, placeholderId, ncaSize)` fixes;
the class is not among the sources.  The third argument is the total size `T`
of the staging buffer. -/
structure BufferedPlaceholderWriter where
  /-- The id of the placeholder written to. -/
  placeholderId : NcmNcaId
  /-- The total size `T`. -/
  totalDataSize : Nat
  deriving DecidableEq, Repr

/-- The numeric members of `StreamFuncArgs`. -/
structure StreamFuncArgs where
  /-- The member `pfs0Offset` (`u64`). -/
  pfs0Offset : Nat
  /-- The member `ncaSize` (`u64`). -/
  ncaSize : Nat
  deriving DecidableEq, Repr

/-- The thread body `CurlStreamFunc`, as seen by the download object: the one
call `args->download->StreamDataRange(args->pfs0Offset, args->ncaSize,
streamFunc)`.  The per-chunk lambda is `streamFunc` below. -/
def CurlStreamFunc (args : StreamFuncArgs) (d : HTTPDownload) : HTTPDownload :=
  { d with streams := d.streams ++ [(args.pfs0Offset, args.ncaSize)] }

/-- The method `RemoteNSP::StreamToPlaceholder` up to the creation of the
producer thread: the entry lookup, the writer construction, the arguments
handed to the thread and the streaming read that thread issues.  The progress
loops only read counters and are left out. -/
def StreamToPlaceholder (L : Layout) (s : RemoteNSP) (placeholderId : NcmNcaId) :
    Except Error (BufferedPlaceholderWriter × StreamFuncArgs × RemoteNSP) := do
  let fileEntry ← GetFileEntryByNcaId L s placeholderId
  let namePtr ← GetFileEntryName L s fileEntry
  let _ncaFileName ← cString s.m_headerBytes namePtr
  let ncaSize ← PFS0FileEntry.fileSize s.m_headerBytes fileEntry
  let bufferedPlaceholderWriter : BufferedPlaceholderWriter :=
    { placeholderId := placeholderId, totalDataSize := ncaSize }
  let dataOffset ← GetDataOffset s
  let entryDataOffset ← PFS0FileEntry.dataOffset s.m_headerBytes fileEntry
  let args : StreamFuncArgs :=
    { pfs0Offset := (dataOffset + entryDataOffset) % SIZE_MOD, ncaSize := ncaSize }
  .ok (bufferedPlaceholderWriter, args, { s with m_download := CurlStreamFunc args s.m_download })

/-! ## The two thread bodies -/

/-- A call of a `BufferedPlaceholderWriter` method made by one of the two
thread bodies, with the value it returned.  The class is not among the sources
and its state is shared with the other thread, so the answers are taken from
the environment and only the calls are recorded. -/
inductive WriterCall where
  /-- The call `CanAppendData(size)` and its result. -/
  | CanAppendData (size : Nat) (result : Bool)
  /-- The call `AppendData(data, size)`. -/
  | AppendData (data : List Byte) (size : Nat)
  /-- The call `IsPlaceholderComplete()` and its result. -/
  | IsPlaceholderComplete (result : Bool)
  /-- The call `CanWriteSegmentToPlaceholder()` and its result. -/
  | CanWriteSegmentToPlaceholder (result : Bool)
  /-- The call `WriteSegmentToPlaceholder()`. -/
  | WriteSegmentToPlaceholder
  deriving DecidableEq, Repr

/-- The `while (true)` loop of the lambda `streamFunc` in `CurlStreamFunc`, from
its poll number `k` with `fuel` polls left: the calls made and whether the
`break` was reached.  `canAppendData k size` is what the `k`-th call
`CanAppendData(size)` returns. -/
def streamFunc.wait (canAppendData : Nat → Nat → Bool) (streamBufSize : Nat) :
    Nat → Nat → List WriterCall × Bool
  | 0, _ => ([], false)
  | fuel + 1, k =>
    if canAppendData k streamBufSize then
      ([.CanAppendData streamBufSize true], true)
    else
      let rest := streamFunc.wait canAppendData streamBufSize fuel (k + 1)
      (.CanAppendData streamBufSize false :: rest.1, rest.2)

/-- The lambda `streamFunc` of `CurlStreamFunc`, run for at most `fuel` polls:
the calls it made and, once it has returned, its return value (`none` while it
is still polling). -/
def streamFunc (canAppendData : Nat → Nat → Bool) (streamBuf : List Byte)
    (streamBufSize : Nat) (fuel : Nat) : List WriterCall × Option Nat :=
  let waited := streamFunc.wait canAppendData streamBufSize fuel 0
  if waited.2 then
    (waited.1 ++ [.AppendData streamBuf streamBufSize], some streamBufSize)
  else
    (waited.1, none)

/-- The `while` loop of `PlaceholderWriteFunc`, from its iteration `k` with
`fuel` iterations left: the calls it made and, once it has returned, its return
value 0 (`none` while it is still looping).  `isPlaceholderComplete k` and
`canWriteSegment k` are what the calls of iteration `k` return. -/
def PlaceholderWriteFunc.loop (isPlaceholderComplete canWriteSegment : Nat → Bool) :
    Nat → Nat → List WriterCall × Option Int
  | 0, _ => ([], none)
  | fuel + 1, k =>
    if isPlaceholderComplete k then
      ([.IsPlaceholderComplete true], some 0)
    else
      let rest := PlaceholderWriteFunc.loop isPlaceholderComplete canWriteSegment fuel (k + 1)
      if canWriteSegment k then
        (.IsPlaceholderComplete false :: .CanWriteSegmentToPlaceholder true
          :: .WriteSegmentToPlaceholder :: rest.1, rest.2)
      else
        (.IsPlaceholderComplete false :: .CanWriteSegmentToPlaceholder false :: rest.1, rest.2)

/-- The thread body `PlaceholderWriteFunc`, run for at most `fuel` iterations. -/
def PlaceholderWriteFunc (isPlaceholderComplete canWriteSegment : Nat → Bool) (fuel : Nat) :
    List WriterCall × Option Int :=
  PlaceholderWriteFunc.loop isPlaceholderComplete canWriteSegment fuel 0

/-- Modelled from the spec: one `FileEntry` record of the container format,
"data offset (8-byte unsigned), byte size (8-byte unsigned), string-table
offset (4-byte unsigned), reserved padding". -/
structure FileEntryFields where
  /-- Data offset, relative to the end of the header region. -/
  dataOffset : Nat
  /-- Byte size. -/
  fileSize : Nat
  /-- Offset of the name in the string table. -/
  stringTableOffset : Nat
  /-- The reserved padding bytes. -/
  reserved : List Byte
  deriving DecidableEq, Repr

/-- Modelled from the spec: a synthesized header region, "BaseHeader +
FileEntry[] + StringTable". -/
structure Archive where
  /-- The magic tag. -/
  magic : Nat
  /-- The reserved padding of the base header. -/
  reserved : List Byte
  /-- The file entries. -/
  entries : List FileEntryFields
  /-- The string table. -/
  stringTable : List Byte
  deriving DecidableEq, Repr

/-- Little-endian serialisation of one file entry. -/
def FileEntryFields.serialize (e : FileEntryFields) : List Byte :=
  toLE 8 e.dataOffset ++ toLE 8 e.fileSize ++ toLE 4 e.stringTableOffset ++ e.reserved

/-- Little-endian serialisation of the base header. -/
def Archive.baseHeader (a : Archive) : List Byte :=
  toLE 4 a.magic ++ toLE 4 a.entries.length ++ toLE 4 a.stringTable.length ++ a.reserved

/-- Serialisation of the entry table. -/
def serializeEntries : List FileEntryFields → List Byte
  | [] => []
  | e :: es => e.serialize ++ serializeEntries es

/-- The header region `BaseHeader ++ FileEntry[0..N) ++ StringTable`. -/
def Archive.serialize (a : Archive) : List Byte :=
  a.baseHeader ++ serializeEntries a.entries ++ a.stringTable

/-- The fields of an entry fit their widths and its padding fills the entry
up to `entrySize`. -/
def FileEntryFields.Fits (L : Layout) (e : FileEntryFields) : Prop :=
  e.dataOffset < 18446744073709551616 ∧ e.fileSize < 18446744073709551616 ∧
  e.stringTableOffset < 4294967296 ∧ 20 + e.reserved.length = L.entrySize

instance (L : Layout) (e : FileEntryFields) : Decidable (e.Fits L) := by
  unfold FileEntryFields.Fits; infer_instance

/-- The counts of an archive fit their 32-bit fields, the base header's padding
fills it up to `headerFixedSize`, and every entry fits. -/
def Archive.Fits (L : Layout) (a : Archive) : Prop :=
  a.entries.length < 4294967296 ∧ a.stringTable.length < 4294967296 ∧
  12 + a.reserved.length = L.headerFixedSize ∧ ∀ e ∈ a.entries, e.Fits L

instance (L : Layout) (a : Archive) : Decidable (a.Fits L) := by
  unfold Archive.Fits; infer_instance

/-- The names `names[i]` are stored in the string table: each is free of zero
bytes and sits, followed by a zero byte, at the string-table offset of entry
`i`. -/
def Archive.HasNames (a : Archive) (names : List (List Byte)) : Prop :=
  names.length = a.entries.length ∧
  ∀ i < a.entries.length,
    (0 : Byte) ∉ names.getD i [] ∧
    (names.getD i [] ++ [0]) <+: a.stringTable.drop ((a.entries.map FileEntryFields.stringTableOffset).getD i 0)

/-- File count stored in a header buffer (bytes 4 to 7). -/
def numFilesOf (buf : List Byte) : Nat :=
  leValue ((buf.drop 4).take 4)

/-- String-table size stored in a header buffer (bytes 8 to 11). -/
def stringTableSizeOf (buf : List Byte) : Nat :=
  leValue ((buf.drop 8).take 4)

/-- String-table offset stored in entry `i` of a header buffer. -/
def stringTableOffsetOf (L : Layout) (buf : List Byte) (i : Nat) : Nat :=
  leValue ((buf.drop (L.headerFixedSize + i * L.entrySize + 16)).take 4)

/-- Start of the name of entry `i` in a header buffer. -/
def nameStartOf (L : Layout) (buf : List Byte) (i : Nat) : Nat :=
  L.headerFixedSize + numFilesOf buf * L.entrySize + stringTableOffsetOf L buf i

/-- Name of entry `i` of a header buffer: the bytes from its start up to the
first zero byte. -/
def nameOf (L : Layout) (buf : List Byte) (i : Nat) : List Byte :=
  (buf.drop (nameStartOf L buf i)).takeWhile fun b => b ≠ 0

/-- A well-formed retrieved header: the entry table is complete and the name of
every entry is terminated by a zero byte inside the buffer. -/
def WellFormed (L : Layout) (buf : List Byte) : Prop :=
  L.headerFixedSize + numFilesOf buf * L.entrySize ≤ buf.length ∧
  ∀ i < numFilesOf buf, (0 : Byte) ∈ buf.drop (nameStartOf L buf i)

instance (L : Layout) (buf : List Byte) : Decidable (WellFormed L buf) := by
  unfold WellFormed; infer_instance

/-- The part of a name after its first `'.'`: everything up to and including
that dot is removed; a name without a dot has nothing removed. -/
def afterFirstDot (name : List Byte) : List Byte :=
  if DOT ∈ name then (name.dropWhile fun b => b ≠ DOT).drop 1 else name

instance (a : Archive) (names : List (List Byte)) : Decidable (a.HasNames names) := by
  unfold Archive.HasNames; infer_instance

/-! ## Sample data -/

/-- A 16-byte content id; its rendering is
`000102030405060708090a0b0c0d0e0f`. -/
def sampleId : NcmNcaId := [0, 1, 2, 3, 4, 5, 6, 7, 8, 9, 10, 11, 12, 13, 14, 15]

/-- The four names stored in `sampleArchive`. -/
def sampleNames : List (List Byte) :=
  [GetNcaIdString sampleId ++ ascii ".cnmt.nca", GetNcaIdString sampleId ++ ascii ".nca",
   ascii "a.cnmt.nca", ascii "b"]

/-- A header region with four entries for the layout `Layout.packed`. -/
def sampleArchive : Archive :=
  { magic := 810766160
    reserved := [0, 0, 0, 0]
    entries := [⟨0, 5, 0, [0, 0, 0, 0]⟩, ⟨5, 7, 42, [0, 0, 0, 0]⟩,
                ⟨12, 3, 79, [0, 0, 0, 0]⟩, ⟨15, 1, 90, [0, 0, 0, 0]⟩]
    stringTable := sampleNames.flatMap fun n => n ++ [0] }

/-- A remote resource: the sample header region followed by 16 payload
bytes. -/
def sampleRemote : HTTPDownload :=
  { remote := sampleArchive.serialize ++ [1, 2, 3, 4, 5, 6, 7, 8, 9, 10, 11, 12, 13, 14, 15, 16]
    requests := []
    streams := [] }

/-- The object before `RetrieveHeader`. -/
def sampleFresh : RemoteNSP := ⟨sampleRemote, []⟩

/-- The object holding the retrieved sample header. -/
def sampleNSP : RemoteNSP := ⟨sampleRemote, sampleArchive.serialize⟩

/-- The object holding only the first 50 bytes of the sample header: the base
header, entry 0 and part of entry 1. -/
def truncatedNSP : RemoteNSP := ⟨sampleRemote, sampleArchive.serialize.take 50⟩

/-- A header region with the three names `a.cnmt.nca`, `abc` and `abc.`. -/
def dotArchive : Archive :=
  { magic := 810766160
    reserved := [0, 0, 0, 0]
    entries := [⟨0, 4, 0, [0, 0, 0, 0]⟩, ⟨4, 4, 11, [0, 0, 0, 0]⟩, ⟨8, 4, 15, [0, 0, 0, 0]⟩]
    stringTable := ascii "a.cnmt.nca" ++ [0] ++ ascii "abc" ++ [0] ++ ascii "abc." ++ [0] }

/-- The object holding the retrieved header `dotArchive`. -/
def dotNSP : RemoteNSP := ⟨⟨dotArchive.serialize, [], []⟩, dotArchive.serialize⟩

/-- A header region whose single entry, named after `sampleId`, declares the
largest 64-bit data offset. -/
def wrapArchive : Archive :=
  { magic := 810766160
    reserved := [0, 0, 0, 0]
    entries := [⟨18446744073709551615, 5, 0, [0, 0, 0, 0]⟩]
    stringTable := GetNcaIdString sampleId ++ ascii ".nca" ++ [0] }

/-- The object holding the retrieved header `wrapArchive`. -/
def wrapNSP : RemoteNSP :=
  ⟨⟨wrapArchive.serialize, [(0, 16), (16, 61)], []⟩, wrapArchive.serialize⟩

/-- The object `RetrieveHeader` leaves on the sample remote. -/
def sampleRetrieved : RemoteNSP :=
  ⟨{ sampleRemote with requests := [(0, 16), (16, 188)] }, sampleArchive.serialize⟩

/-- A 16-byte content id that names no entry of the sample header. -/
def absentId : NcmNcaId :=
  [255, 255, 255, 255, 255, 255, 255, 255, 255, 255, 255, 255, 255, 255, 255, 255]

/-- A header region whose single entry declares the string-table offset 100
although the string table has two bytes. -/
def strayArchive : Archive :=
  { magic := 810766160
    reserved := [0, 0, 0, 0]
    entries := [⟨0, 5, 100, [0, 0, 0, 0]⟩]
    stringTable := ascii "a" ++ [0] }

/-- The object before `RetrieveHeader`, with the remote `strayArchive`. -/
def strayFresh : RemoteNSP := ⟨⟨strayArchive.serialize, [], []⟩, []⟩

/-- The object `RetrieveHeader` leaves on the remote `strayArchive`. -/
def strayNSP : RemoteNSP :=
  ⟨⟨strayArchive.serialize, [(0, 16), (16, 26)], []⟩, strayArchive.serialize⟩

/-- A header region whose string table, `ab`, holds no zero byte. -/
def unterminatedArchive : Archive :=
  { magic := 810766160
    reserved := [0, 0, 0, 0]
    entries := [⟨0, 5, 0, [0, 0, 0, 0]⟩]
    stringTable := ascii "ab" }

/-- The object before `RetrieveHeader`, with the remote
`unterminatedArchive`. -/
def unterminatedFresh : RemoteNSP := ⟨⟨unterminatedArchive.serialize, [], []⟩, []⟩

/-- The object `RetrieveHeader` leaves on the remote `unterminatedArchive`. -/
def unterminatedNSP : RemoteNSP :=
  ⟨⟨unterminatedArchive.serialize, [(0, 16), (16, 26)], []⟩, unterminatedArchive.serialize⟩

/-! ## Little-endian fields -/

theorem leValue_lt (bs : List Byte) : leValue bs < 256 ^ bs.length := by
  induction bs with
  | nil => simp [leValue]
  | cons b bs ih =>
    have hb := b.isLt
    simp only [leValue, List.length_cons, pow_succ]
    omega

theorem toLE_length (w x : Nat) : (toLE w x).length = w := by
  induction w generalizing x with
  | zero => rfl
  | succ w ih => simp [toLE, ih]

theorem leValue_toLE (w x : Nat) : leValue (toLE w x) = x % 256 ^ w := by
  induction w generalizing x with
  | zero => simp [toLE, leValue, Nat.mod_one]
  | succ w ih =>
    simp only [toLE, leValue, ih, pow_succ]
    rw [Nat.mul_comm (256 ^ w) 256, Nat.mod_mul]

theorem leValue_toLE_of_lt (w x : Nat) (h : x < 256 ^ w) : leValue (toLE w x) = x := by
  rw [leValue_toLE, Nat.mod_eq_of_lt h]

theorem readField_some (buf : List Byte) (a off w : Nat) (h : a + off + w ≤ buf.length) :
    readField buf (some a) off w = .ok (leValue ((buf.drop (a + off)).take w)) := by
  simp [readField, h]

theorem readField_lt (buf : List Byte) (p : Ptr) (off w v : Nat)
    (h : readField buf p off w = .ok v) : v < 256 ^ w := by
  cases p with
  | none => cases h
  | some a =>
    simp only [readField] at h
    split at h
    · injection h with h
      subst h
      refine lt_of_lt_of_le (leValue_lt _) ?_
      apply Nat.pow_le_pow_right (by decide)
      simp
    · cases h

/-! ## Absence of wrap-around for valid layouts -/

theorem mul_le_u32 {a b : Nat} (ha : a < 4294967296) (hb : b < 4294967296) :
    a * b ≤ 4294967295 * 4294967295 :=
  Nat.mul_le_mul (by omega) (by omega)

theorem entryOffset_no_wrap (L : Layout) (hL : L.Valid) (i : Nat) (hi : i < 4294967296) :
    (L.headerFixedSize + i * L.entrySize % SIZE_MOD) % SIZE_MOD
      = L.headerFixedSize + i * L.entrySize := by
  obtain ⟨_, h2, _, h4⟩ := hL
  have := mul_le_u32 hi h4
  simp only [SIZE_MOD]
  omega

theorem entryEnd_no_wrap (L : Layout) (hL : L.Valid) (i : Nat) (hi : i + 1 < 4294967296) :
    (L.headerFixedSize + i * L.entrySize + L.entrySize) % SIZE_MOD
      = L.headerFixedSize + (i + 1) * L.entrySize := by
  obtain ⟨_, h2, _, h4⟩ := hL
  have := mul_le_u32 hi h4
  simp only [SIZE_MOD]
  have e : (i + 1) * L.entrySize = i * L.entrySize + L.entrySize := by ring
  omega

/-! ## The accessors -/

theorem GetBaseHeader_of_ne_nil (s : RemoteNSP) (h : s.m_headerBytes ≠ []) :
    GetBaseHeader s = .ok (some 0) := by
  simp [GetBaseHeader, h]

theorem numFiles_eq (buf : List Byte) (h8 : 8 ≤ buf.length) :
    PFS0BaseHeader.numFiles buf (some 0) = .ok (numFilesOf buf) := by
  unfold PFS0BaseHeader.numFiles
  rw [readField_some _ _ _ _ (by omega)]
  simp [numFilesOf]

theorem numFilesOf_lt (buf : List Byte) : numFilesOf buf < 4294967296 := by
  unfold numFilesOf
  refine lt_of_lt_of_le (leValue_lt _) ?_
  have h : ((buf.drop 4).take 4).length ≤ 4 := by simp
  calc 256 ^ ((buf.drop 4).take 4).length ≤ 256 ^ 4 := Nat.pow_le_pow_right (by decide) h
    _ = 4294967296 := by norm_num

theorem ne_nil_of_le_length (buf : List Byte) (h8 : 8 ≤ buf.length) : buf ≠ [] := by
  intro h
  rw [h] at h8
  simp at h8

/-- What `GetFileEntry` computes on a buffer holding at least the file
count. -/
theorem GetFileEntry_eq (L : Layout) (hL : L.Valid) (s : RemoteNSP) (index : Nat)
    (h8 : 8 ≤ s.m_headerBytes.length) :
    GetFileEntry L s index =
      if numFilesOf s.m_headerBytes ≤ index then .error .OutOfRange
      else if s.m_headerBytes.length < L.headerFixedSize + (index + 1) * L.entrySize then
        .error .Corrupt
      else .ok (some (L.headerFixedSize + index * L.entrySize)) := by
  have hne := ne_nil_of_le_length _ h8
  have hn := numFiles_eq _ h8
  have hlt := numFilesOf_lt s.m_headerBytes
  unfold GetFileEntry
  rw [GetBaseHeader_of_ne_nil s hne]
  simp only [bind, Except.bind, hn, ge_iff_le]
  by_cases hi : numFilesOf s.m_headerBytes ≤ index
  · simp [hi]
  · have hi1 : index < 4294967296 := by omega
    have hi2 : index + 1 < 4294967296 := by omega
    rw [entryOffset_no_wrap L hL index hi1, entryEnd_no_wrap L hL index hi2]

/-- C9: `GetDataOffset()` and `GetBaseHeader()` each fail with the not-ready
error exactly when the header buffer is empty, and on a non-empty buffer
`GetDataOffset()` returns the length of the buffer (and `GetBaseHeader()` the
pointer to its start). -/
theorem GetDataOffset_GetBaseHeader_notReady_iff (s : RemoteNSP) :
    (GetDataOffset s = .error .NotReady ↔ s.m_headerBytes = []) ∧
    (GetBaseHeader s = .error .NotReady ↔ s.m_headerBytes = []) ∧
    (s.m_headerBytes ≠ [] →
      GetDataOffset s = .ok s.m_headerBytes.length ∧ GetBaseHeader s = .ok (some 0)) := by
  unfold GetDataOffset GetBaseHeader
  cases h : s.m_headerBytes <;> simp

/-- The two accessors on a three-byte buffer and on the empty buffer. -/
theorem GetDataOffset_GetBaseHeader_notReady_iff_witness :
    GetDataOffset ⟨⟨[], [], []⟩, [7, 7, 7]⟩ = .ok 3 ∧
    GetBaseHeader ⟨⟨[], [], []⟩, [7, 7, 7]⟩ = .ok (some 0) ∧
    GetDataOffset ⟨⟨[], [], []⟩, []⟩ = .error .NotReady ∧
    GetBaseHeader ⟨⟨[], [], []⟩, []⟩ = .error .NotReady :=
  ⟨((GetDataOffset_GetBaseHeader_notReady_iff ⟨⟨[], [], []⟩, [7, 7, 7]⟩).2.2 (by decide)).1,
   ((GetDataOffset_GetBaseHeader_notReady_iff ⟨⟨[], [], []⟩, [7, 7, 7]⟩).2.2 (by decide)).2,
   by decide, by decide⟩

/-- C1: on a header buffer of at least `headerFixedSize` bytes, with `numFiles`
the file count read from the base header, `GetFileEntry(index)` fails with the
out-of-range error exactly when `index ≥ numFiles`; for `index < numFiles` it
fails with the too-small error exactly when the buffer is shorter than
`headerFixedSize + (index + 1) * entrySize`; and in every other case it
succeeds, returning the pointer at `headerFixedSize + index * entrySize`. -/
theorem GetFileEntry_outcome (L : Layout) (hL : L.Valid) (s : RemoteNSP) (index : Nat)
    (hlen : L.headerFixedSize ≤ s.m_headerBytes.length) :
    ∃ numFiles, PFS0BaseHeader.numFiles s.m_headerBytes (some 0) = .ok numFiles ∧
      (GetFileEntry L s index = .error .OutOfRange ↔ numFiles ≤ index) ∧
      (index < numFiles →
        (GetFileEntry L s index = .error .Corrupt ↔
          s.m_headerBytes.length < L.headerFixedSize + (index + 1) * L.entrySize)) ∧
      (index < numFiles →
        L.headerFixedSize + (index + 1) * L.entrySize ≤ s.m_headerBytes.length →
        GetFileEntry L s index = .ok (some (L.headerFixedSize + index * L.entrySize))) := by
  have h8 : 8 ≤ s.m_headerBytes.length := le_trans (by have := hL.1; omega) hlen
  refine ⟨numFilesOf s.m_headerBytes, numFiles_eq _ h8, ?_, ?_, ?_⟩
  · rw [GetFileEntry_eq L hL s index h8]
    constructor
    · intro h
      by_contra hc
      rw [if_neg hc] at h
      split at h <;> cases h
    · intro h
      rw [if_pos h]
  · intro hi
    rw [GetFileEntry_eq L hL s index h8, if_neg (by omega)]
    constructor
    · intro h
      by_contra hc
      rw [if_neg hc] at h
      cases h
    · intro h
      rw [if_pos h]
  · intro hi hfit
    rw [GetFileEntry_eq L hL s index h8, if_neg (by omega), if_neg (by omega)]

/-- The outcome of `GetFileEntry(1)` on the sample header cut to 50 bytes. -/
theorem GetFileEntry_outcome_witness :
    Layout.packed.Valid ∧ Layout.packed.headerFixedSize ≤ truncatedNSP.m_headerBytes.length ∧
    ∃ numFiles, PFS0BaseHeader.numFiles truncatedNSP.m_headerBytes (some 0) = .ok numFiles ∧
      (GetFileEntry Layout.packed truncatedNSP 1 = .error .OutOfRange ↔ numFiles ≤ 1) ∧
      (1 < numFiles →
        (GetFileEntry Layout.packed truncatedNSP 1 = .error .Corrupt ↔
          truncatedNSP.m_headerBytes.length < 16 + (1 + 1) * 24)) ∧
      (1 < numFiles → 16 + (1 + 1) * 24 ≤ truncatedNSP.m_headerBytes.length →
        GetFileEntry Layout.packed truncatedNSP 1 = .ok (some (16 + 1 * 24))) :=
  ⟨by decide, by decide,
   GetFileEntry_outcome Layout.packed (by decide) truncatedNSP 1 (by decide)⟩

theorem leValue_field (pre mid post : List Byte) :
    leValue (((pre ++ mid ++ post).drop pre.length).take mid.length) = leValue mid := by
  simp

theorem serialize_entry_length (L : Layout) (e : FileEntryFields) (he : e.Fits L) :
    e.serialize.length = L.entrySize := by
  obtain ⟨_, _, _, h⟩ := he
  simp [FileEntryFields.serialize, toLE_length]
  omega

theorem serializeEntries_length (L : Layout) (es : List FileEntryFields)
    (hes : ∀ e ∈ es, e.Fits L) : (serializeEntries es).length = es.length * L.entrySize := by
  induction es with
  | nil => simp [serializeEntries]
  | cons e es ih =>
    have h1 := serialize_entry_length L e (hes e (by simp))
    have h2 := ih (fun x hx => hes x (by simp [hx]))
    simp only [serializeEntries, List.length_append, List.length_cons, h1, h2]
    ring

theorem drop_serializeEntries (L : Layout) (es : List FileEntryFields)
    (hes : ∀ e ∈ es, e.Fits L) (i : Nat) (hi : i < es.length) :
    (serializeEntries es).drop (i * L.entrySize)
      = es[i].serialize ++ serializeEntries (es.drop (i + 1)) := by
  induction es generalizing i with
  | nil => simp at hi
  | cons e es ih =>
    have h1 := serialize_entry_length L e (hes e (by simp))
    cases i with
    | zero => simp [serializeEntries]
    | succ i =>
      have hi2 : i < es.length := by simpa using hi
      have := ih (fun x hx => hes x (by simp [hx])) i hi2
      have e1 : (i + 1) * L.entrySize = e.serialize.length + i * L.entrySize := by
        rw [h1]; ring
      simp only [serializeEntries, e1, List.drop_append, List.getElem_cons_succ,
        List.drop_succ_cons]
      exact this

theorem baseHeader_length (L : Layout) (a : Archive) (ha : a.Fits L) :
    a.baseHeader.length = L.headerFixedSize := by
  obtain ⟨_, _, h, _⟩ := ha
  simp [Archive.baseHeader, toLE_length]
  omega

theorem serialize_length (L : Layout) (a : Archive) (ha : a.Fits L) :
    a.serialize.length
      = L.headerFixedSize + a.entries.length * L.entrySize + a.stringTable.length := by
  simp [Archive.serialize, baseHeader_length L a ha, serializeEntries_length L a.entries ha.2.2.2]
  omega

theorem numFilesOf_serialize (L : Layout) (a : Archive) (ha : a.Fits L) (rest : List Byte) :
    numFilesOf (a.serialize ++ rest) = a.entries.length := by
  have h := leValue_field (toLE 4 a.magic) (toLE 4 a.entries.length)
    (toLE 4 a.stringTable.length ++ a.reserved ++ serializeEntries a.entries ++ a.stringTable ++ rest)
  simp only [toLE_length] at h
  unfold numFilesOf
  simp only [Archive.serialize, Archive.baseHeader, List.append_assoc] at h ⊢
  rw [h, leValue_toLE_of_lt]
  have := ha.1
  norm_num
  omega

theorem drop_serialize (L : Layout) (a : Archive) (ha : a.Fits L) (rest : List Byte)
    (i : Nat) (hi : i < a.entries.length) :
    (a.serialize ++ rest).drop (L.headerFixedSize + i * L.entrySize)
      = a.entries[i].serialize
          ++ (serializeEntries (a.entries.drop (i + 1)) ++ a.stringTable ++ rest) := by
  have h1 := baseHeader_length L a ha
  have h2 := drop_serializeEntries L a.entries ha.2.2.2 i hi
  unfold Archive.serialize
  rw [← h1, List.append_assoc, List.append_assoc, List.drop_append,
    List.drop_append_of_le_length, h2]
  · simp
  · rw [serializeEntries_length L a.entries ha.2.2.2]
    exact Nat.mul_le_mul_right _ (le_of_lt hi)

theorem drop_serialize_stringTable (L : Layout) (a : Archive) (ha : a.Fits L)
    (rest : List Byte) (k : Nat) :
    (a.serialize ++ rest).drop (L.headerFixedSize + a.entries.length * L.entrySize + k)
      = (a.stringTable ++ rest).drop k := by
  have h1 := baseHeader_length L a ha
  have h2 := serializeEntries_length L a.entries ha.2.2.2
  unfold Archive.serialize
  rw [← h1, ← h2, List.append_assoc, List.append_assoc, Nat.add_assoc, List.drop_append,
    List.drop_append]

/-- The three fields read through a pointer to a serialised entry. -/
theorem readFields_serialized (e : FileEntryFields) (post buf : List Byte) (p : Nat)
    (hbuf : buf.drop p = e.serialize ++ post) (hp : p ≤ buf.length) :
    PFS0FileEntry.dataOffset buf (some p) = .ok (e.dataOffset % 256 ^ 8) ∧
    PFS0FileEntry.fileSize buf (some p) = .ok (e.fileSize % 256 ^ 8) ∧
    PFS0FileEntry.stringTableOffset buf (some p) = .ok (e.stringTableOffset % 256 ^ 4) := by
  have hlen : buf.length = p + (e.serialize ++ post).length := by
    rw [← hbuf, List.length_drop]; omega
  simp only [FileEntryFields.serialize, List.length_append, toLE_length] at hlen
  have hd : ∀ k, buf.drop (p + k) = (e.serialize ++ post).drop k := by
    intro k
    rw [← hbuf, List.drop_drop, Nat.add_comm]
  refine ⟨?_, ?_, ?_⟩
  · unfold PFS0FileEntry.dataOffset
    rw [readField_some _ _ _ _ (by omega), hd]
    have := leValue_field [] (toLE 8 e.dataOffset)
      (toLE 8 e.fileSize ++ toLE 4 e.stringTableOffset ++ e.reserved ++ post)
    simp only [toLE_length, List.nil_append, List.length_nil] at this
    simp only [FileEntryFields.serialize, List.append_assoc] at this ⊢
    rw [this, leValue_toLE]
  · unfold PFS0FileEntry.fileSize
    rw [readField_some _ _ _ _ (by omega), hd]
    have := leValue_field (toLE 8 e.dataOffset) (toLE 8 e.fileSize)
      (toLE 4 e.stringTableOffset ++ e.reserved ++ post)
    simp only [toLE_length] at this
    simp only [FileEntryFields.serialize, List.append_assoc] at this ⊢
    rw [this, leValue_toLE]
  · unfold PFS0FileEntry.stringTableOffset
    rw [readField_some _ _ _ _ (by omega), hd]
    have := leValue_field (toLE 8 e.dataOffset ++ toLE 8 e.fileSize) (toLE 4 e.stringTableOffset)
      (e.reserved ++ post)
    simp only [toLE_length, List.length_append] at this
    simp only [FileEntryFields.serialize, List.append_assoc] at this ⊢
    rw [this, leValue_toLE]

theorem entry_end_le (L : Layout) (a : Archive) (ha : a.Fits L) (i : Nat)
    (hi : i < a.entries.length) :
    L.headerFixedSize + (i + 1) * L.entrySize ≤ a.serialize.length := by
  rw [serialize_length L a ha]
  have : (i + 1) * L.entrySize ≤ a.entries.length * L.entrySize :=
    Nat.mul_le_mul_right L.entrySize hi
  omega

/-- C2: on the little-endian serialisation `BaseHeader(numFiles = N) ++
FileEntry[0..N) ++ StringTable` of any `N` entries and any string table,
`GetFileEntry(i)` succeeds for every `i < N`, the pointer it returns is at
`headerFixedSize + i * entrySize`, the `entrySize` bytes there are the
serialisation of entry `i`, and the `dataOffset`, `fileSize` and
`stringTableOffset` read through the pointer are those of entry `i`. -/
theorem GetFileEntry_serialized (L : Layout) (hL : L.Valid) (a : Archive) (ha : a.Fits L)
    (d : HTTPDownload) (i : Nat) (hi : i < a.entries.length) :
    GetFileEntry L ⟨d, a.serialize⟩ i = .ok (some (L.headerFixedSize + i * L.entrySize)) ∧
    (a.serialize.drop (L.headerFixedSize + i * L.entrySize)).take L.entrySize
      = a.entries[i].serialize ∧
    PFS0FileEntry.dataOffset a.serialize (some (L.headerFixedSize + i * L.entrySize))
      = .ok a.entries[i].dataOffset ∧
    PFS0FileEntry.fileSize a.serialize (some (L.headerFixedSize + i * L.entrySize))
      = .ok a.entries[i].fileSize ∧
    PFS0FileEntry.stringTableOffset a.serialize (some (L.headerFixedSize + i * L.entrySize))
      = .ok a.entries[i].stringTableOffset := by
  have hend := entry_end_le L a ha i hi
  have hn : numFilesOf a.serialize = a.entries.length := by
    simpa using numFilesOf_serialize L a ha []
  have hdrop := drop_serialize L a ha [] i hi
  simp only [List.append_nil] at hdrop
  have hfit := ha.2.2.2 _ (List.getElem_mem hi)
  have hsz := serialize_entry_length L _ hfit
  have hle : L.headerFixedSize + i * L.entrySize ≤ a.serialize.length := by
    have e1 : (i + 1) * L.entrySize = i * L.entrySize + L.entrySize := by ring
    omega
  obtain ⟨r1, r2, r3⟩ := readFields_serialized _ _ _ _ hdrop hle
  obtain ⟨f1, f2, f3, _⟩ := hfit
  refine ⟨?_, ?_, ?_, ?_, ?_⟩
  · rw [GetFileEntry_eq L hL _ i (by have := hL.1; simp only; omega)]
    simp only [hn]
    rw [if_neg (by omega), if_neg (by omega)]
  · rw [hdrop, ← hsz, List.take_left']
    rfl
  · rw [r1, Nat.mod_eq_of_lt (by norm_num; omega)]
  · rw [r2, Nat.mod_eq_of_lt (by norm_num; omega)]
  · rw [r3, Nat.mod_eq_of_lt (by norm_num; omega)]

/-- Entry 1 of the sample header, read back through `GetFileEntry(1)`. -/
theorem GetFileEntry_serialized_witness :
    Layout.packed.Valid ∧ sampleArchive.Fits Layout.packed ∧
    GetFileEntry Layout.packed ⟨sampleRemote, sampleArchive.serialize⟩ 1 = .ok (some 40) ∧
    (sampleArchive.serialize.drop 40).take 24
      = (FileEntryFields.mk 5 7 42 [0, 0, 0, 0]).serialize ∧
    PFS0FileEntry.dataOffset sampleArchive.serialize (some 40) = .ok 5 ∧
    PFS0FileEntry.fileSize sampleArchive.serialize (some 40) = .ok 7 ∧
    PFS0FileEntry.stringTableOffset sampleArchive.serialize (some 40) = .ok 42 :=
  ⟨by decide, by decide,
   GetFileEntry_serialized Layout.packed (by decide) sampleArchive (by decide) sampleRemote 1
     (by decide)⟩

theorem takeWhile_ne_zero_append (name rest : List Byte) (h0 : (0 : Byte) ∉ name) :
    (name ++ 0 :: rest).takeWhile (fun b => b ≠ 0) = name := by
  induction name with
  | nil => simp [List.takeWhile_cons]
  | cons b bs ih =>
    have hb : b ≠ 0 := fun h => h0 (by simp [h])
    have hbs : (0 : Byte) ∉ bs := fun h => h0 (by simp [h])
    rw [List.cons_append, List.takeWhile_cons_of_pos (by simpa using hb), ih hbs]

theorem cString_of_prefix (buf : List Byte) (q : Nat) (name : List Byte)
    (h0 : (0 : Byte) ∉ name) (hpre : (name ++ [0]) <+: buf.drop q) :
    cString buf (some q) = .ok name := by
  obtain ⟨rest, hrest⟩ := hpre
  have e : buf.drop q = name ++ 0 :: rest := by rw [← hrest]; simp
  simp only [cString, e]
  rw [if_pos (by simp), takeWhile_ne_zero_append _ _ h0]

theorem stringTableOffsetOf_eq (L : Layout) (buf : List Byte) (i : Nat)
    (h : L.headerFixedSize + i * L.entrySize + 20 ≤ buf.length) :
    PFS0FileEntry.stringTableOffset buf (some (L.headerFixedSize + i * L.entrySize))
      = .ok (stringTableOffsetOf L buf i) := by
  unfold PFS0FileEntry.stringTableOffset
  rw [readField_some _ _ _ _ (by omega)]
  rfl

theorem tableStart_no_wrap (L : Layout) (hL : L.Valid) (n : Nat) (hn : n < 4294967296) :
    (L.headerFixedSize + n * L.entrySize % SIZE_MOD) % SIZE_MOD
      = L.headerFixedSize + n * L.entrySize :=
  entryOffset_no_wrap L hL n hn

/-- What `GetFileEntryName` computes for a pointer whose `stringTableOffset`
field lies inside the buffer. -/
theorem GetFileEntryName_eq (L : Layout) (hL : L.Valid) (s : RemoteNSP) (p : Nat)
    (h8 : 8 ≤ s.m_headerBytes.length) (hp : p + 20 ≤ s.m_headerBytes.length) :
    GetFileEntryName L s (some p)
      = .ok (some (L.headerFixedSize + numFilesOf s.m_headerBytes * L.entrySize
          + leValue ((s.m_headerBytes.drop (p + 16)).take 4))) := by
  have hne : s.m_headerBytes ≠ [] := by
    intro h; rw [h] at h8; simp at h8
  unfold GetFileEntryName
  rw [GetBaseHeader_of_ne_nil s hne]
  simp only [bind, Except.bind, numFiles_eq _ h8]
  rw [tableStart_no_wrap L hL _ (numFilesOf_lt _)]
  unfold PFS0FileEntry.stringTableOffset
  rw [readField_some _ _ _ _ (by omega)]

theorem getD_map_stringTableOffset (es : List FileEntryFields) (i : Nat) (hi : i < es.length) :
    (es.map FileEntryFields.stringTableOffset).getD i 0 = es[i].stringTableOffset := by
  simp [List.getD_eq_getElem?_getD, List.getElem?_eq_getElem hi]

theorem GetFileEntry_on_serialize (L : Layout) (hL : L.Valid) (a : Archive) (ha : a.Fits L)
    (d : HTTPDownload) (i : Nat) (hi : i < a.entries.length) :
    GetFileEntry L ⟨d, a.serialize⟩ i = .ok (some (L.headerFixedSize + i * L.entrySize)) := by
  have hend := entry_end_le L a ha i hi
  have hn : numFilesOf a.serialize = a.entries.length := by
    simpa using numFilesOf_serialize L a ha []
  rw [GetFileEntry_eq L hL _ i (by have := hL.1; simp only; omega)]
  simp only [hn]
  rw [if_neg (by omega), if_neg (by omega)]

theorem stringTableOffset_on_serialize (L : Layout) (a : Archive) (ha : a.Fits L)
    (i : Nat) (hi : i < a.entries.length) :
    PFS0FileEntry.stringTableOffset a.serialize (some (L.headerFixedSize + i * L.entrySize))
      = .ok a.entries[i].stringTableOffset := by
  have hend := entry_end_le L a ha i hi
  have hdrop := drop_serialize L a ha [] i hi
  simp only [List.append_nil] at hdrop
  have hle : L.headerFixedSize + i * L.entrySize ≤ a.serialize.length := by
    have e1 : (i + 1) * L.entrySize = i * L.entrySize + L.entrySize := by ring
    omega
  obtain ⟨-, -, r3⟩ := readFields_serialized _ _ _ _ hdrop hle
  obtain ⟨-, -, f3, -⟩ := ha.2.2.2 _ (List.getElem_mem hi)
  rw [r3, Nat.mod_eq_of_lt (by norm_num; omega)]

/-- C7: on the header serialised from `N` entries whose string-table offsets
point at the starts of the zero-terminated names `names[0..N)` (no zero byte
inside a name), for every `i < N` the pointer `GetFileEntryName(GetFileEntry(i))`
is at `headerFixedSize + numFiles * entrySize + entry.stringTableOffset`, and
the string read from it, which ends just before the first zero byte, is
`names[i]`. -/
theorem GetFileEntryName_serialized (L : Layout) (hL : L.Valid) (a : Archive) (ha : a.Fits L)
    (names : List (List Byte)) (hnames : a.HasNames names) (d : HTTPDownload)
    (i : Nat) (hi : i < a.entries.length) :
    ∃ fileEntry,
      GetFileEntry L ⟨d, a.serialize⟩ i = .ok fileEntry ∧
      GetFileEntryName L ⟨d, a.serialize⟩ fileEntry
        = .ok (some (L.headerFixedSize + a.entries.length * L.entrySize
            + a.entries[i].stringTableOffset)) ∧
      cString a.serialize (some (L.headerFixedSize + a.entries.length * L.entrySize
            + a.entries[i].stringTableOffset)) = .ok (names.getD i []) ∧
      (a.serialize.drop (L.headerFixedSize + a.entries.length * L.entrySize
            + a.entries[i].stringTableOffset)).takeWhile (fun b => b ≠ 0) = names.getD i [] := by
  have hget := GetFileEntry_on_serialize L hL a ha d i hi
  have hsto := stringTableOffset_on_serialize L a ha i hi
  have hend := entry_end_le L a ha i hi
  have hn : numFilesOf a.serialize = a.entries.length := by
    simpa using numFilesOf_serialize L a ha []
  have h20 : L.headerFixedSize + i * L.entrySize + 20 ≤ a.serialize.length := by
    have e1 : (i + 1) * L.entrySize = i * L.entrySize + L.entrySize := by ring
    have := hL.2.2.1
    omega
  have h8 : 8 ≤ a.serialize.length := by have := hL.1; omega
  obtain ⟨-, hnm⟩ := hnames
  obtain ⟨h0, hpre⟩ := hnm i hi
  rw [getD_map_stringTableOffset _ i hi] at hpre
  have hdrop := drop_serialize_stringTable L a ha [] a.entries[i].stringTableOffset
  simp only [List.append_nil] at hdrop
  have hc : cString a.serialize (some (L.headerFixedSize + a.entries.length * L.entrySize
            + a.entries[i].stringTableOffset)) = .ok (names.getD i []) :=
    cString_of_prefix _ _ _ h0 (by rw [hdrop]; exact hpre)
  refine ⟨_, hget, ?_, hc, ?_⟩
  · rw [GetFileEntryName_eq L hL _ _ h8 h20]
    simp only [hn]
    have h2 := stringTableOffsetOf_eq L a.serialize i h20
    rw [hsto] at h2
    injection h2 with h2
    rw [h2]
    rfl
  · obtain ⟨rest, hrest⟩ := hpre
    rw [hdrop, ← hrest]
    simpa using takeWhile_ne_zero_append (names.getD i []) rest h0

/-- The name of entry 2 of the sample header, read back. -/
theorem GetFileEntryName_serialized_witness :
    Layout.packed.Valid ∧ sampleArchive.Fits Layout.packed ∧
    sampleArchive.HasNames sampleNames ∧
    ∃ fileEntry,
      GetFileEntry Layout.packed sampleNSP 2 = .ok fileEntry ∧
      GetFileEntryName Layout.packed sampleNSP fileEntry = .ok (some 191) ∧
      cString sampleNSP.m_headerBytes (some 191) = .ok (ascii "a.cnmt.nca") ∧
      (sampleNSP.m_headerBytes.drop 191).takeWhile (fun b => b ≠ 0) = ascii "a.cnmt.nca" :=
  ⟨by decide, by decide, by decide,
   GetFileEntryName_serialized Layout.packed (by decide) sampleArchive (by decide)
     sampleNames (by decide) sampleRemote 2 (by decide)⟩

/-! ## Header retrieval -/

theorem resize_length (buf : List Byte) (n : Nat) (fill : Byte) :
    (resize buf n fill).length = n := by
  simp only [resize, List.length_append, List.length_take, List.length_replicate]
  omega

theorem take_resize (xs : List Byte) (k m : Nat) (hk : xs.length = k) :
    (resize xs (k + m) 0).take k = xs := by
  have h1 : xs.take (k + m) = xs := List.take_of_length_le (by omega)
  unfold resize
  rw [h1, List.take_left' hk]

theorem BufferDataRange_fill (d : HTTPDownload) (buf : List Byte) (destOff offset size : Nat)
    (h1 : offset + size ≤ d.remote.length) (h2 : destOff + size = buf.length) :
    BufferDataRange d buf destOff offset size
      = .ok (buf.take destOff ++ (d.remote.drop offset).take size,
             { d with requests := d.requests ++ [(offset, size)] }) := by
  unfold BufferDataRange
  rw [if_pos h1, if_pos (le_of_eq h2), h2, List.drop_length]
  simp

theorem BufferDataRange_short (d : HTTPDownload) (buf : List Byte) (destOff offset size : Nat)
    (h1 : ¬ offset + size ≤ d.remote.length) :
    BufferDataRange d buf destOff offset size = .error .Transport := by
  unfold BufferDataRange
  rw [if_neg h1]

theorem take_drop_take (xs : List Byte) (k a w : Nat) (h : a + w ≤ k) :
    ((xs.take k).drop a).take w = (xs.drop a).take w := by
  rw [List.drop_take, List.take_take, Nat.min_eq_left (by omega)]

theorem numFilesOf_take (xs : List Byte) (k : Nat) (h : 8 ≤ k) :
    numFilesOf (xs.take k) = numFilesOf xs := by
  unfold numFilesOf
  rw [take_drop_take _ _ _ _ (by omega)]

theorem stringTableSizeOf_take (xs : List Byte) (k : Nat) (h : 12 ≤ k) :
    stringTableSizeOf (xs.take k) = stringTableSizeOf xs := by
  unfold stringTableSizeOf
  rw [take_drop_take _ _ _ _ (by omega)]

theorem stringTableSizeOf_lt (buf : List Byte) : stringTableSizeOf buf < 4294967296 := by
  unfold stringTableSizeOf
  refine lt_of_lt_of_le (leValue_lt _) ?_
  have h : ((buf.drop 8).take 4).length ≤ 4 := by simp
  calc 256 ^ ((buf.drop 8).take 4).length ≤ 256 ^ 4 := Nat.pow_le_pow_right (by decide) h
    _ = 4294967296 := by norm_num

theorem stringTableSize_eq (buf : List Byte) (h12 : 12 ≤ buf.length) :
    PFS0BaseHeader.stringTableSize buf (some 0) = .ok (stringTableSizeOf buf) := by
  unfold PFS0BaseHeader.stringTableSize
  rw [readField_some _ _ _ _ (by omega)]
  simp [stringTableSizeOf]

theorem remaining_no_wrap (L : Layout) (hL : L.Valid) (n sts : Nat)
    (hn : n < 4294967296) (hs : sts < 4294967296) :
    (n * L.entrySize % SIZE_MOD + sts) % SIZE_MOD = n * L.entrySize + sts ∧
    (L.headerFixedSize + (n * L.entrySize + sts)) % SIZE_MOD
      = L.headerFixedSize + n * L.entrySize + sts := by
  obtain ⟨_, h2, _, h4⟩ := hL
  have := mul_le_u32 hn h4
  simp only [SIZE_MOD]
  omega

/-- The full header length the base header of `remote` announces. -/
theorem RetrieveHeader_eq (L : Layout) (hL : L.Valid) (s : RemoteNSP) :
    RetrieveHeader L s =
      if L.headerFixedSize ≤ s.m_download.remote.length then
        if L.headerFixedSize + numFilesOf s.m_download.remote * L.entrySize
            + stringTableSizeOf s.m_download.remote ≤ s.m_download.remote.length then
          .ok { m_download :=
                  { s.m_download with
                    requests := s.m_download.requests ++
                      [(0, L.headerFixedSize),
                       (L.headerFixedSize, numFilesOf s.m_download.remote * L.entrySize
                          + stringTableSizeOf s.m_download.remote)] }
                m_headerBytes := s.m_download.remote.take
                  (L.headerFixedSize + numFilesOf s.m_download.remote * L.entrySize
                    + stringTableSizeOf s.m_download.remote) }
        else .error .Transport
      else .error .Transport := by
  have h12 := hL.1
  unfold RetrieveHeader
  by_cases hh : L.headerFixedSize ≤ s.m_download.remote.length
  · rw [if_pos hh]
    have hb1 := BufferDataRange_fill s.m_download (resize s.m_headerBytes L.headerFixedSize 0)
      0 0 L.headerFixedSize (by omega) (by rw [resize_length]; omega)
    have hlen : (s.m_download.remote.take L.headerFixedSize).length = L.headerFixedSize := by
      rw [List.length_take]; omega
    have hne : s.m_download.remote.take L.headerFixedSize ≠ [] := by
      intro h; rw [h] at hlen; simp at hlen; omega
    obtain ⟨w1, w2⟩ := remaining_no_wrap L hL _ _ (numFilesOf_lt s.m_download.remote)
      (stringTableSizeOf_lt s.m_download.remote)
    simp only [bind, Except.bind, hb1, List.take_zero, List.nil_append, List.drop_zero,
      GetBaseHeader, List.isEmpty_eq_true, hne, if_false,
      numFiles_eq _ (show 8 ≤ _ by rw [hlen]; omega),
      stringTableSize_eq _ (show 12 ≤ _ by rw [hlen]; omega),
      numFilesOf_take _ _ (show 8 ≤ L.headerFixedSize by omega),
      stringTableSizeOf_take _ _ h12, w1, w2]
    by_cases hfull : L.headerFixedSize + numFilesOf s.m_download.remote * L.entrySize
        + stringTableSizeOf s.m_download.remote ≤ s.m_download.remote.length
    · rw [if_pos hfull]
      have hb2 := BufferDataRange_fill
        { s.m_download with requests := s.m_download.requests ++ [(0, L.headerFixedSize)] }
        (resize (s.m_download.remote.take L.headerFixedSize)
          (L.headerFixedSize + numFilesOf s.m_download.remote * L.entrySize
            + stringTableSizeOf s.m_download.remote) 0)
        L.headerFixedSize L.headerFixedSize
        (numFilesOf s.m_download.remote * L.entrySize + stringTableSizeOf s.m_download.remote)
        (by simp only; omega) (by rw [resize_length]; omega)
      have e : L.headerFixedSize + numFilesOf s.m_download.remote * L.entrySize
          + stringTableSizeOf s.m_download.remote
          = L.headerFixedSize + (numFilesOf s.m_download.remote * L.entrySize
          + stringTableSizeOf s.m_download.remote) := by omega
      have hres := take_resize (s.m_download.remote.take L.headerFixedSize) L.headerFixedSize
        (numFilesOf s.m_download.remote * L.entrySize + stringTableSizeOf s.m_download.remote)
        hlen
      rw [← e] at hres
      simp only [hb2, hres]
      rw [e, List.take_add s.m_download.remote L.headerFixedSize]
      simp only [List.append_assoc, List.cons_append, List.nil_append]
    · rw [if_neg hfull]
      have hb2 := BufferDataRange_short
        { s.m_download with requests := s.m_download.requests ++ [(0, L.headerFixedSize)] }
        (resize (s.m_download.remote.take L.headerFixedSize)
          (L.headerFixedSize + numFilesOf s.m_download.remote * L.entrySize
            + stringTableSizeOf s.m_download.remote) 0)
        L.headerFixedSize L.headerFixedSize
        (numFilesOf s.m_download.remote * L.entrySize + stringTableSizeOf s.m_download.remote)
        (by simp only; omega)
      simp only [hb2]
  · rw [if_neg hh]
    have hb1 := BufferDataRange_short s.m_download (resize s.m_headerBytes L.headerFixedSize 0)
      0 0 L.headerFixedSize (by omega)
    simp only [bind, Except.bind, hb1]

theorem stringTableSizeOf_serialize (L : Layout) (a : Archive) (ha : a.Fits L)
    (rest : List Byte) : stringTableSizeOf (a.serialize ++ rest) = a.stringTable.length := by
  have h := leValue_field (toLE 4 a.magic ++ toLE 4 a.entries.length)
    (toLE 4 a.stringTable.length)
    (a.reserved ++ serializeEntries a.entries ++ a.stringTable ++ rest)
  simp only [toLE_length, List.length_append] at h
  unfold stringTableSizeOf
  simp only [Archive.serialize, Archive.baseHeader, List.append_assoc] at h ⊢
  rw [h, leValue_toLE_of_lt]
  have := ha.2.1
  norm_num
  omega

/-- C3: when the remote begins with the serialisation `BaseHeader ++
FileEntry[N] ++ StringTable` of an archive, followed by any payload, and the
fetcher returns exactly the requested remote bytes, `RetrieveHeader` succeeds,
issues exactly the two reads `[0, headerFixedSize)` and `[headerFixedSize,
headerFixedSize + N * entrySize + stringTableSize)`, and leaves the header
buffer equal to the first `headerFixedSize + N * entrySize + stringTableSize`
bytes of the remote, which are the serialised header. -/
theorem RetrieveHeader_serialized (L : Layout) (hL : L.Valid) (a : Archive) (ha : a.Fits L)
    (payload : List Byte) (requests streams : List (Nat × Nat)) (old : List Byte) :
    RetrieveHeader L ⟨⟨a.serialize ++ payload, requests, streams⟩, old⟩
      = .ok ⟨⟨a.serialize ++ payload,
              requests ++ [(0, L.headerFixedSize),
                (L.headerFixedSize, a.entries.length * L.entrySize + a.stringTable.length)],
              streams⟩,
             (a.serialize ++ payload).take
               (L.headerFixedSize + a.entries.length * L.entrySize + a.stringTable.length)⟩ ∧
    (a.serialize ++ payload).take
        (L.headerFixedSize + a.entries.length * L.entrySize + a.stringTable.length)
      = a.serialize := by
  have hlen := serialize_length L a ha
  constructor
  · rw [RetrieveHeader_eq L hL]
    simp only [numFilesOf_serialize L a ha, stringTableSizeOf_serialize L a ha]
    rw [if_pos (by simp only [List.length_append]; omega),
      if_pos (by simp only [List.length_append]; omega)]
  · rw [← hlen, List.take_left']
    rfl

/-- Retrieval of the sample header from a remote with three payload bytes,
into a buffer that held three stale bytes. -/
theorem RetrieveHeader_serialized_witness :
    Layout.packed.Valid ∧ sampleArchive.Fits Layout.packed ∧
    RetrieveHeader Layout.packed
        ⟨⟨sampleArchive.serialize ++ [9, 9, 9], [], []⟩, [1, 2, 3]⟩
      = .ok ⟨⟨sampleArchive.serialize ++ [9, 9, 9], [] ++ [(0, 16), (16, 4 * 24 + 92)], []⟩,
             (sampleArchive.serialize ++ [9, 9, 9]).take (16 + 4 * 24 + 92)⟩ ∧
    (sampleArchive.serialize ++ [9, 9, 9]).take (16 + 4 * 24 + 92) = sampleArchive.serialize :=
  ⟨by decide, by decide,
   RetrieveHeader_serialized Layout.packed (by decide) sampleArchive (by decide) [9, 9, 9]
     [] [] [1, 2, 3]⟩

/-- C8: after a successful `RetrieveHeader`, with `numFiles` and
`stringTableSize` the 32-bit values read from the retrieved base header, the
64-bit computation of the remaining header size does not wrap and
`GetDataOffset()` returns `headerFixedSize + numFiles * entrySize +
stringTableSize` in exact natural-number arithmetic. -/
theorem GetDataOffset_after_RetrieveHeader (L : Layout) (hL : L.Valid) (s s' : RemoteNSP)
    (hret : RetrieveHeader L s = .ok s') :
    ∃ numFiles stringTableSize,
      PFS0BaseHeader.numFiles s'.m_headerBytes (some 0) = .ok numFiles ∧
      PFS0BaseHeader.stringTableSize s'.m_headerBytes (some 0) = .ok stringTableSize ∧
      numFiles < 4294967296 ∧ stringTableSize < 4294967296 ∧
      (numFiles * L.entrySize % SIZE_MOD + stringTableSize) % SIZE_MOD
        = numFiles * L.entrySize + stringTableSize ∧
      GetDataOffset s'
        = .ok (L.headerFixedSize + numFiles * L.entrySize + stringTableSize) := by
  have h12 := hL.1
  rw [RetrieveHeader_eq L hL] at hret
  split at hret
  · rename_i hh
    split at hret
    · rename_i hfull
      injection hret with hret
      subst hret
      have hlen : (s.m_download.remote.take (L.headerFixedSize
          + numFilesOf s.m_download.remote * L.entrySize
          + stringTableSizeOf s.m_download.remote)).length
          = L.headerFixedSize + numFilesOf s.m_download.remote * L.entrySize
          + stringTableSizeOf s.m_download.remote := by
        rw [List.length_take]; omega
      refine ⟨numFilesOf s.m_download.remote, stringTableSizeOf s.m_download.remote,
        ?_, ?_, numFilesOf_lt _, stringTableSizeOf_lt _, ?_, ?_⟩
      · simp only
        rw [numFiles_eq _ (by rw [hlen]; omega), numFilesOf_take _ _ (by omega)]
      · simp only
        rw [stringTableSize_eq _ (by rw [hlen]; omega), stringTableSizeOf_take _ _ (by omega)]
      · exact (remaining_no_wrap L hL _ _ (numFilesOf_lt _) (stringTableSizeOf_lt _)).1
      · have hne := ne_nil_of_le_length _ (show 8 ≤ _ by rw [hlen]; omega)
        simp only [GetDataOffset, List.isEmpty_eq_true, hne, if_false, hlen]
    · cases hret
  · cases hret

/-- The data offset after retrieving the sample header: 16 + 4 * 24 + 92. -/
theorem GetDataOffset_after_RetrieveHeader_witness :
    Layout.packed.Valid ∧
    RetrieveHeader Layout.packed sampleFresh
      = .ok ⟨{ sampleRemote with requests := [(0, 16), (16, 188)] }, sampleArchive.serialize⟩ ∧
    ∃ numFiles stringTableSize,
      PFS0BaseHeader.numFiles sampleArchive.serialize (some 0) = .ok numFiles ∧
      PFS0BaseHeader.stringTableSize sampleArchive.serialize (some 0) = .ok stringTableSize ∧
      numFiles < 4294967296 ∧ stringTableSize < 4294967296 ∧
      (numFiles * 24 % SIZE_MOD + stringTableSize) % SIZE_MOD
        = numFiles * 24 + stringTableSize ∧
      GetDataOffset ⟨{ sampleRemote with requests := [(0, 16), (16, 188)] },
          sampleArchive.serialize⟩
        = .ok (16 + numFiles * 24 + stringTableSize) :=
  ⟨by decide, by decide,
   GetDataOffset_after_RetrieveHeader Layout.packed (by decide) sampleFresh
     ⟨{ sampleRemote with requests := [(0, 16), (16, 188)] }, sampleArchive.serialize⟩
     (by decide)⟩

/-! ## The linear scans -/

/-- A loop that returns the pointer `g j` of the first index `j` satisfying `P`
and `nullptr` when it runs out of indices. -/
theorem scan_spec (F : Nat → Nat → Except Error Ptr) (P : Nat → Prop) [DecidablePred P]
    (g : Nat → Nat) (n : Nat) (h0 : ∀ i, F 0 i = .ok none)
    (hstep : ∀ fuel j, j < n → F (fuel + 1) j = if P j then .ok (some (g j)) else F fuel (j + 1))
    (fuel i : Nat) (hbound : i + fuel ≤ n) :
    (F fuel i = .ok none ↔ ∀ j, i ≤ j → j < i + fuel → ¬ P j) ∧
    (∀ j, i ≤ j → j < i + fuel → P j → (∀ k, i ≤ k → k < j → ¬ P k) →
      F fuel i = .ok (some (g j))) := by
  induction fuel generalizing i with
  | zero =>
    refine ⟨?_, ?_⟩
    · simp only [h0, true_iff]
      intro j h1 h2
      omega
    · intro j h1 h2
      omega
  | succ fuel ih =>
    obtain ⟨ih1, ih2⟩ := ih (i + 1) (by omega)
    rw [hstep fuel i (by omega)]
    by_cases hp : P i
    · rw [if_pos hp]
      refine ⟨?_, ?_⟩
      · constructor
        · intro h; cases h
        · intro h; exact absurd hp (h i (le_refl i) (by omega))
      · intro j h1 h2 hj hmin
        have : j = i := by
          by_contra hne
          exact hmin i (le_refl i) (by omega) hp
        rw [this]
    · rw [if_neg hp]
      refine ⟨?_, ?_⟩
      · rw [ih1]
        constructor
        · intro h j h1 h2
          by_cases hji : j = i
          · rw [hji]; exact hp
          · exact h j (by omega) (by omega)
        · intro h j h1 h2
          exact h j (by omega) (by omega)
      · intro j h1 h2 hj hmin
        have hne : j ≠ i := fun h => hp (h ▸ hj)
        exact ih2 j (by omega) (by omega) hj (fun k hk1 hk2 => hmin k (by omega) hk2)

/-- The same loop always returns, and a pointer it returns is that of the
first index satisfying `P`. -/
theorem scan_total (F : Nat → Nat → Except Error Ptr) (P : Nat → Prop) [DecidablePred P]
    (g : Nat → Nat) (n : Nat) (h0 : ∀ i, F 0 i = .ok none)
    (hstep : ∀ fuel j, j < n → F (fuel + 1) j = if P j then .ok (some (g j)) else F fuel (j + 1))
    (fuel i : Nat) (hbound : i + fuel ≤ n) :
    F fuel i = .ok none ∨
    ∃ j, i ≤ j ∧ j < i + fuel ∧ P j ∧ (∀ k, i ≤ k → k < j → ¬ P k) ∧
      F fuel i = .ok (some (g j)) := by
  induction fuel generalizing i with
  | zero => exact Or.inl (h0 i)
  | succ fuel ih =>
    rw [hstep fuel i (by omega)]
    by_cases hp : P i
    · rw [if_pos hp]
      exact Or.inr ⟨i, le_refl i, by omega, hp, fun k h1 h2 => by omega, rfl⟩
    · rw [if_neg hp]
      rcases ih (i + 1) (by omega) with h | ⟨j, h1, h2, h3, h4, h5⟩
      · exact Or.inl h
      · refine Or.inr ⟨j, by omega, by omega, h3, fun k hk1 hk2 => ?_, h5⟩
        by_cases hki : k = i
        · rw [hki]; exact hp
        · exact h4 k (by omega) hk2

theorem wellFormed_le (L : Layout) (hL : L.Valid) (buf : List Byte) (hwf : WellFormed L buf) :
    8 ≤ buf.length := by
  have := hL.1
  have := hwf.1
  omega

theorem wellFormed_entry_end (L : Layout) (buf : List Byte) (hwf : WellFormed L buf)
    (j : Nat) (hj : j < numFilesOf buf) :
    L.headerFixedSize + (j + 1) * L.entrySize ≤ buf.length := by
  have h1 := hwf.1
  have : (j + 1) * L.entrySize ≤ numFilesOf buf * L.entrySize :=
    Nat.mul_le_mul_right L.entrySize hj
  omega

/-- On a well-formed header, `GetFileEntry(j)` returns the pointer to entry
`j`, for every `j < numFiles`. -/
theorem GetFileEntry_wellFormed (L : Layout) (hL : L.Valid) (s : RemoteNSP)
    (hwf : WellFormed L s.m_headerBytes) (j : Nat) (hj : j < numFilesOf s.m_headerBytes) :
    GetFileEntry L s j = .ok (some (L.headerFixedSize + j * L.entrySize)) := by
  have hend := wellFormed_entry_end L _ hwf j hj
  rw [GetFileEntry_eq L hL s j (wellFormed_le L hL _ hwf), if_neg (by omega), if_neg (by omega)]

/-- On a well-formed header, the name pointer of entry `j` is the start of
its name. -/
theorem GetFileEntryName_wellFormed (L : Layout) (hL : L.Valid) (s : RemoteNSP)
    (hwf : WellFormed L s.m_headerBytes) (j : Nat) (hj : j < numFilesOf s.m_headerBytes) :
    GetFileEntryName L s (some (L.headerFixedSize + j * L.entrySize))
      = .ok (some (nameStartOf L s.m_headerBytes j)) := by
  have hend := wellFormed_entry_end L _ hwf j hj
  have h20 : L.headerFixedSize + j * L.entrySize + 20 ≤ s.m_headerBytes.length := by
    have e1 : (j + 1) * L.entrySize = j * L.entrySize + L.entrySize := by ring
    have := hL.2.2.1
    omega
  rw [GetFileEntryName_eq L hL s _ (wellFormed_le L hL _ hwf) h20]
  rfl

/-- On a well-formed header, the string read at the start of the name of
entry `j` is its name. -/
theorem cString_wellFormed (L : Layout) (s : RemoteNSP)
    (hwf : WellFormed L s.m_headerBytes) (j : Nat) (hj : j < numFilesOf s.m_headerBytes) :
    cString s.m_headerBytes (some (nameStartOf L s.m_headerBytes j))
      = .ok (nameOf L s.m_headerBytes j) := by
  simp only [cString]
  rw [if_pos (hwf.2 j hj)]
  rfl

theorem GetFileEntryByName_loop_step (L : Layout) (hL : L.Valid) (s : RemoteNSP)
    (hwf : WellFormed L s.m_headerBytes) (name : List Byte) (fuel j : Nat)
    (hj : j < numFilesOf s.m_headerBytes) :
    GetFileEntryByName.loop L s name (fuel + 1) j =
      if nameOf L s.m_headerBytes j = name then
        .ok (some (L.headerFixedSize + j * L.entrySize))
      else GetFileEntryByName.loop L s name fuel (j + 1) := by
  simp only [GetFileEntryByName.loop, bind, Except.bind, GetFileEntry_wellFormed L hL s hwf j hj,
    GetFileEntryName_wellFormed L hL s hwf j hj, cString_wellFormed L s hwf j hj]

theorem GetFileEntryByName_eq_loop (L : Layout) (hL : L.Valid) (s : RemoteNSP)
    (hwf : WellFormed L s.m_headerBytes) (name : List Byte) :
    GetFileEntryByName L s name
      = GetFileEntryByName.loop L s name (numFilesOf s.m_headerBytes) 0 := by
  have h8 := wellFormed_le L hL _ hwf
  simp only [GetFileEntryByName, bind, Except.bind,
    GetBaseHeader_of_ne_nil s (ne_nil_of_le_length _ h8), numFiles_eq _ h8]

theorem GetFileEntryByName_none_iff (L : Layout) (hL : L.Valid) (s : RemoteNSP)
    (hwf : WellFormed L s.m_headerBytes) (name : List Byte) :
    GetFileEntryByName L s name = .ok none ↔
      ∀ i < numFilesOf s.m_headerBytes, nameOf L s.m_headerBytes i ≠ name := by
  obtain ⟨h1, -⟩ := scan_spec (GetFileEntryByName.loop L s name)
    (fun j => nameOf L s.m_headerBytes j = name) (fun j => L.headerFixedSize + j * L.entrySize)
    (numFilesOf s.m_headerBytes) (fun i => rfl)
    (fun fuel j hj => GetFileEntryByName_loop_step L hL s hwf name fuel j hj)
    (numFilesOf s.m_headerBytes) 0 (by omega)
  rw [GetFileEntryByName_eq_loop L hL s hwf name, h1]
  constructor
  · intro h i hi
    exact h i (Nat.zero_le i) (by omega)
  · intro h j _ hj
    exact h j (by omega)

/-- C5: on a well-formed retrieved header, `GetFileEntryByName(name)` returns
no-match exactly when no entry has the name `name`; when some entry has it,
the result is the pointer to the entry of lowest index with that name; so the
only entry with that name, when there is exactly one, is returned. -/
theorem GetFileEntryByName_spec (L : Layout) (hL : L.Valid) (s : RemoteNSP)
    (hwf : WellFormed L s.m_headerBytes) (name : List Byte) :
    (GetFileEntryByName L s name = .ok none ↔
      ∀ i < numFilesOf s.m_headerBytes, nameOf L s.m_headerBytes i ≠ name) ∧
    (∀ i < numFilesOf s.m_headerBytes, nameOf L s.m_headerBytes i = name →
      (∀ j < i, nameOf L s.m_headerBytes j ≠ name) →
      GetFileEntryByName L s name = .ok (some (L.headerFixedSize + i * L.entrySize))) ∧
    (∀ i < numFilesOf s.m_headerBytes, nameOf L s.m_headerBytes i = name →
      (∀ j < numFilesOf s.m_headerBytes, nameOf L s.m_headerBytes j = name → j = i) →
      GetFileEntryByName L s name = .ok (some (L.headerFixedSize + i * L.entrySize)) ∧
      GetFileEntry L s i = .ok (some (L.headerFixedSize + i * L.entrySize))) := by
  obtain ⟨h1, h2⟩ := scan_spec (GetFileEntryByName.loop L s name)
    (fun j => nameOf L s.m_headerBytes j = name) (fun j => L.headerFixedSize + j * L.entrySize)
    (numFilesOf s.m_headerBytes) (fun i => rfl)
    (fun fuel j hj => GetFileEntryByName_loop_step L hL s hwf name fuel j hj)
    (numFilesOf s.m_headerBytes) 0 (by omega)
  rw [GetFileEntryByName_eq_loop L hL s hwf name]
  refine ⟨?_, ?_, ?_⟩
  · rw [h1]
    constructor
    · intro h i hi
      exact h i (Nat.zero_le i) (by omega)
    · intro h j _ hj
      exact h j (by omega)
  · intro i hi hname hmin
    exact h2 i (Nat.zero_le i) (by omega) hname (fun k _ hk => hmin k hk)
  · intro i hi hname huniq
    refine ⟨h2 i (Nat.zero_le i) (by omega) hname (fun k _ hk hk2 => ?_),
      GetFileEntry_wellFormed L hL s hwf i hi⟩
    have := huniq k (by omega) hk2
    omega

/-- Lookups of a present and of an absent name in the sample header. -/
theorem GetFileEntryByName_spec_witness :
    Layout.packed.Valid ∧ WellFormed Layout.packed sampleNSP.m_headerBytes ∧
    GetFileEntryByName Layout.packed sampleNSP (ascii "b") = .ok (some (16 + 3 * 24)) ∧
    GetFileEntryByName Layout.packed sampleNSP (ascii "c") = .ok none :=
  ⟨by decide, by decide,
   (GetFileEntryByName_spec Layout.packed (by decide) sampleNSP (by decide) (ascii "b")).2.1
     3 (by decide) (by decide) (by decide),
   (GetFileEntryByName_spec Layout.packed (by decide) sampleNSP (by decide) (ascii "c")).1.2
     (by decide)⟩

theorem dropWhile_ne_eq_drop_indexOf (c : Byte) (l : List Byte) :
    l.dropWhile (fun b => b ≠ c) = l.drop (l.indexOf c) := by
  induction l with
  | nil => simp
  | cons b bs ih =>
    by_cases hb : b = c
    · subst hb
      simp [List.dropWhile_cons]
    · have : (b == c) = false := by simpa using hb
      rw [List.indexOf_cons, this, cond_false, List.drop_succ_cons, ← ih,
        List.dropWhile_cons_of_pos (by simpa using hb)]

/-- The `substr(find(".") + 1)` idiom yields the part after the first dot, and
the whole string when there is no dot. -/
theorem substr_find_dot (name : List Byte) (hlen : name.length < NPOS) :
    substr name ((find name DOT + 1) % SIZE_MOD) = .ok (afterFirstDot name) := by
  unfold find afterFirstDot substr
  by_cases hdot : DOT ∈ name
  · have hidx := List.indexOf_lt_length.mpr hdot
    simp only [if_pos hdot]
    have hmod : (List.indexOf DOT name + 1) % SIZE_MOD = List.indexOf DOT name + 1 := by
      apply Nat.mod_eq_of_lt
      simp only [SIZE_MOD, NPOS] at hlen ⊢
      omega
    rw [hmod, if_neg (by omega), dropWhile_ne_eq_drop_indexOf, List.drop_drop]
  · simp only [if_neg hdot]
    have hmod : (NPOS + 1) % SIZE_MOD = 0 := by decide
    rw [hmod, if_neg (by omega)]
    rfl

theorem nameOf_length_le (L : Layout) (buf : List Byte) (j : Nat) :
    (nameOf L buf j).length ≤ buf.length := by
  unfold nameOf
  have h1 := (List.takeWhile_prefix (fun b => decide (b ≠ 0))
    (l := buf.drop (nameStartOf L buf j))).length_le
  have h2 : (buf.drop (nameStartOf L buf j)).length ≤ buf.length := by
    rw [List.length_drop]; omega
  omega

theorem GetFileEntryByExtension_loop_step (L : Layout) (hL : L.Valid) (s : RemoteNSP)
    (hwf : WellFormed L s.m_headerBytes) (hsz : s.m_headerBytes.length < NPOS)
    (extension : List Byte) (fuel j : Nat) (hj : j < numFilesOf s.m_headerBytes) :
    GetFileEntryByExtension.loop L s extension (fuel + 1) j =
      if afterFirstDot (nameOf L s.m_headerBytes j) = extension then
        .ok (some (L.headerFixedSize + j * L.entrySize))
      else GetFileEntryByExtension.loop L s extension fuel (j + 1) := by
  have hlen := nameOf_length_le L s.m_headerBytes j
  simp only [GetFileEntryByExtension.loop, bind, Except.bind,
    GetFileEntry_wellFormed L hL s hwf j hj, GetFileEntryName_wellFormed L hL s hwf j hj,
    cString_wellFormed L s hwf j hj, substr_find_dot _ (lt_of_le_of_lt hlen hsz)]

theorem GetFileEntryByExtension_eq_loop (L : Layout) (hL : L.Valid) (s : RemoteNSP)
    (hwf : WellFormed L s.m_headerBytes) (extension : List Byte) :
    GetFileEntryByExtension L s extension
      = GetFileEntryByExtension.loop L s extension (numFilesOf s.m_headerBytes) 0 := by
  have h8 := wellFormed_le L hL _ hwf
  simp only [GetFileEntryByExtension, bind, Except.bind,
    GetBaseHeader_of_ne_nil s (ne_nil_of_le_length _ h8), numFiles_eq _ h8]

/-- C6: on a well-formed retrieved header (whose length, as that of any vector,
is below `npos`), `GetFileEntryByExtension(ext)` returns the pointer to the
lowest-index entry whose name, with everything up to and including its first
`'.'` removed, equals `ext`, and returns no-match, not an error, exactly when
no entry qualifies; the name `a.cnmt.nca` so compares as `cnmt.nca`, not as
`nca`. -/
theorem GetFileEntryByExtension_spec (L : Layout) (hL : L.Valid) (s : RemoteNSP)
    (hwf : WellFormed L s.m_headerBytes) (hsz : s.m_headerBytes.length < NPOS)
    (ext : List Byte) :
    (GetFileEntryByExtension L s ext = .ok none ↔
      ∀ i < numFilesOf s.m_headerBytes, afterFirstDot (nameOf L s.m_headerBytes i) ≠ ext) ∧
    (∀ i < numFilesOf s.m_headerBytes, afterFirstDot (nameOf L s.m_headerBytes i) = ext →
      (∀ j < i, afterFirstDot (nameOf L s.m_headerBytes j) ≠ ext) →
      GetFileEntryByExtension L s ext = .ok (some (L.headerFixedSize + i * L.entrySize)) ∧
      GetFileEntry L s i = .ok (some (L.headerFixedSize + i * L.entrySize))) ∧
    afterFirstDot (ascii "a.cnmt.nca") = ascii "cnmt.nca" ∧
    afterFirstDot (ascii "a.cnmt.nca") ≠ ascii "nca" := by
  obtain ⟨h1, h2⟩ := scan_spec (GetFileEntryByExtension.loop L s ext)
    (fun j => afterFirstDot (nameOf L s.m_headerBytes j) = ext)
    (fun j => L.headerFixedSize + j * L.entrySize)
    (numFilesOf s.m_headerBytes) (fun i => rfl)
    (fun fuel j hj => GetFileEntryByExtension_loop_step L hL s hwf hsz ext fuel j hj)
    (numFilesOf s.m_headerBytes) 0 (by omega)
  rw [GetFileEntryByExtension_eq_loop L hL s hwf ext]
  refine ⟨?_, ?_, by decide, by decide⟩
  · rw [h1]
    constructor
    · intro h i hi
      exact h i (Nat.zero_le i) (by omega)
    · intro h j _ hj
      exact h j (by omega)
  · intro i hi hname hmin
    exact ⟨h2 i (Nat.zero_le i) (by omega) hname (fun k _ hk => hmin k hk),
      GetFileEntry_wellFormed L hL s hwf i hi⟩

/-- Lookups of the extensions `cnmt.nca` and `nca` in a header whose only
dotted multi-part name is `a.cnmt.nca`. -/
theorem GetFileEntryByExtension_spec_witness :
    Layout.packed.Valid ∧ WellFormed Layout.packed dotNSP.m_headerBytes ∧
    dotNSP.m_headerBytes.length < NPOS ∧
    nameOf Layout.packed dotNSP.m_headerBytes 0 = ascii "a.cnmt.nca" ∧
    (GetFileEntryByExtension Layout.packed dotNSP (ascii "cnmt.nca") = .ok (some (16 + 0 * 24)) ∧
      GetFileEntry Layout.packed dotNSP 0 = .ok (some (16 + 0 * 24))) ∧
    GetFileEntryByExtension Layout.packed dotNSP (ascii "nca") = .ok none :=
  ⟨by decide, by decide, by decide, by decide,
   (GetFileEntryByExtension_spec Layout.packed (by decide) dotNSP (by decide) (by decide)
     (ascii "cnmt.nca")).2.1 0 (by decide) (by decide) (by decide),
   (GetFileEntryByExtension_spec Layout.packed (by decide) dotNSP (by decide) (by decide)
     (ascii "nca")).1.2 (by decide)⟩

/-! ## Lookup by content id -/

theorem GetFileEntryByName_total (L : Layout) (hL : L.Valid) (s : RemoteNSP)
    (hwf : WellFormed L s.m_headerBytes) (name : List Byte) :
    GetFileEntryByName L s name = .ok none ∨
    ∃ j, j < numFilesOf s.m_headerBytes ∧ nameOf L s.m_headerBytes j = name ∧
      (∀ k < j, nameOf L s.m_headerBytes k ≠ name) ∧
      GetFileEntryByName L s name = .ok (some (L.headerFixedSize + j * L.entrySize)) := by
  rw [GetFileEntryByName_eq_loop L hL s hwf name]
  rcases scan_total (GetFileEntryByName.loop L s name)
    (fun j => nameOf L s.m_headerBytes j = name) (fun j => L.headerFixedSize + j * L.entrySize)
    (numFilesOf s.m_headerBytes) (fun i => rfl)
    (fun fuel j hj => GetFileEntryByName_loop_step L hL s hwf name fuel j hj)
    (numFilesOf s.m_headerBytes) 0 (by omega) with h | ⟨j, -, h2, h3, h4, h5⟩
  · exact Or.inl h
  · exact Or.inr ⟨j, by omega, h3, fun k hk => h4 k (Nat.zero_le k) hk, h5⟩

theorem GetFileEntryByNcaId_of_some (L : Layout) (s : RemoteNSP) (ncaId : NcmNcaId) (p : Nat)
    (h : GetFileEntryByName L s (GetNcaIdString ncaId ++ ascii ".nca") = .ok (some p)) :
    GetFileEntryByNcaId L s ncaId = .ok (some p) := by
  simp [GetFileEntryByNcaId, bind, Except.bind, h]

theorem GetFileEntryByNcaId_of_none (L : Layout) (s : RemoteNSP) (ncaId : NcmNcaId)
    (h : GetFileEntryByName L s (GetNcaIdString ncaId ++ ascii ".nca") = .ok none)
    (r : Ptr)
    (h2 : GetFileEntryByName L s (GetNcaIdString ncaId ++ ascii ".cnmt.nca") = .ok r) :
    GetFileEntryByNcaId L s ncaId = .ok r := by
  cases r <;> simp [GetFileEntryByNcaId, bind, Except.bind, h, h2]

/-- C4: on a well-formed retrieved header both name lookups return normally;
`GetFileEntryByNcaId(id)` returns the entry `GetFileEntryByName(hex(id) +
".nca")` finds when it finds one, otherwise the entry
`GetFileEntryByName(hex(id) + ".cnmt.nca")` finds when that one finds one,
otherwise no-match; and whenever some entry is named `hex(id) + ".nca"` the
result is the lowest-index entry of that name, whatever entries are named
`hex(id) + ".cnmt.nca"`. -/
theorem GetFileEntryByNcaId_spec (L : Layout) (hL : L.Valid) (s : RemoteNSP)
    (hwf : WellFormed L s.m_headerBytes) (ncaId : NcmNcaId) :
    ((∃ r, GetFileEntryByName L s (GetNcaIdString ncaId ++ ascii ".nca") = .ok r) ∧
      ∃ r, GetFileEntryByName L s (GetNcaIdString ncaId ++ ascii ".cnmt.nca") = .ok r) ∧
    (∀ p, GetFileEntryByName L s (GetNcaIdString ncaId ++ ascii ".nca") = .ok (some p) →
      GetFileEntryByNcaId L s ncaId = .ok (some p)) ∧
    (GetFileEntryByName L s (GetNcaIdString ncaId ++ ascii ".nca") = .ok none →
      ∀ p, GetFileEntryByName L s (GetNcaIdString ncaId ++ ascii ".cnmt.nca") = .ok (some p) →
      GetFileEntryByNcaId L s ncaId = .ok (some p)) ∧
    (GetFileEntryByName L s (GetNcaIdString ncaId ++ ascii ".nca") = .ok none →
      GetFileEntryByName L s (GetNcaIdString ncaId ++ ascii ".cnmt.nca") = .ok none →
      GetFileEntryByNcaId L s ncaId = .ok none) ∧
    (∀ i < numFilesOf s.m_headerBytes,
      nameOf L s.m_headerBytes i = GetNcaIdString ncaId ++ ascii ".nca" →
      ∃ k ≤ i, nameOf L s.m_headerBytes k = GetNcaIdString ncaId ++ ascii ".nca" ∧
        (∀ j < k, nameOf L s.m_headerBytes j ≠ GetNcaIdString ncaId ++ ascii ".nca") ∧
        GetFileEntryByNcaId L s ncaId = .ok (some (L.headerFixedSize + k * L.entrySize))) := by
  have tA := GetFileEntryByName_total L hL s hwf (GetNcaIdString ncaId ++ ascii ".nca")
  have tB := GetFileEntryByName_total L hL s hwf (GetNcaIdString ncaId ++ ascii ".cnmt.nca")
  refine ⟨⟨?_, ?_⟩, ?_, ?_, ?_, ?_⟩
  · rcases tA with h | ⟨j, -, -, -, h⟩
    · exact ⟨_, h⟩
    · exact ⟨_, h⟩
  · rcases tB with h | ⟨j, -, -, -, h⟩
    · exact ⟨_, h⟩
    · exact ⟨_, h⟩
  · intro p h
    exact GetFileEntryByNcaId_of_some L s ncaId p h
  · intro h p h2
    exact GetFileEntryByNcaId_of_none L s ncaId h _ h2
  · intro h h2
    exact GetFileEntryByNcaId_of_none L s ncaId h _ h2
  · intro i hi hname
    rcases tA with h | ⟨j, hj, hjn, hmin, h⟩
    · have := (GetFileEntryByName_none_iff L hL s hwf _).mp h i hi
      exact absurd hname this
    · refine ⟨j, ?_, hjn, hmin, GetFileEntryByNcaId_of_some L s ncaId _ h⟩
      by_contra hlt
      exact hmin i (by omega) hname

/-- Lookup of the sample id in the sample header, where the `.cnmt.nca` entry
comes first and the `.nca` entry second. -/
theorem GetFileEntryByNcaId_spec_witness :
    Layout.packed.Valid ∧ WellFormed Layout.packed sampleNSP.m_headerBytes ∧
    GetFileEntryByName Layout.packed sampleNSP (GetNcaIdString sampleId ++ ascii ".cnmt.nca")
      = .ok (some 16) ∧
    GetFileEntryByName Layout.packed sampleNSP (GetNcaIdString sampleId ++ ascii ".nca")
      = .ok (some 40) ∧
    GetFileEntryByNcaId Layout.packed sampleNSP sampleId = .ok (some 40) :=
  ⟨by decide, by decide, by decide, by decide,
   (GetFileEntryByNcaId_spec Layout.packed (by decide) sampleNSP (by decide) sampleId).2.1
     40 (by decide)⟩

/-! ## Streaming set-up -/

/-- A successful `GetFileEntry` leaves the whole entry inside the buffer. -/
theorem GetFileEntry_ok_bound (L : Layout) (hL : L.Valid) (s : RemoteNSP) (j p : Nat)
    (h : GetFileEntry L s j = .ok (some p)) : p + L.entrySize ≤ s.m_headerBytes.length := by
  have h8 : 8 ≤ s.m_headerBytes.length := by
    by_contra hc
    unfold GetFileEntry GetBaseHeader at h
    by_cases hempty : s.m_headerBytes.isEmpty = true
    · simp [hempty, bind, Except.bind] at h
    · have hshort : ¬ (0 + 4 + 4 ≤ s.m_headerBytes.length) := by omega
      simp [hempty, bind, Except.bind, PFS0BaseHeader.numFiles, readField, hshort] at h
  rw [GetFileEntry_eq L hL s j h8] at h
  split at h
  · cases h
  · split at h
    · cases h
    · injection h with h
      injection h with h
      have e1 : (j + 1) * L.entrySize = j * L.entrySize + L.entrySize := by ring
      omega

/-- A pointer returned by the name scan is a pointer `GetFileEntry` returned,
and the name behind it was read. -/
theorem GetFileEntryByName_loop_sound (L : Layout) (s : RemoteNSP) (name : List Byte)
    (fuel i p : Nat) (h : GetFileEntryByName.loop L s name fuel i = .ok (some p)) :
    ∃ j q nm, GetFileEntry L s j = .ok (some p) ∧ GetFileEntryName L s (some p) = .ok q ∧
      cString s.m_headerBytes q = .ok nm := by
  induction fuel generalizing i with
  | zero => cases h
  | succ fuel ih =>
    simp only [GetFileEntryByName.loop, bind, Except.bind] at h
    cases h1 : GetFileEntry L s i with
    | error e => rw [h1] at h; cases h
    | ok fe =>
      rw [h1] at h
      simp only at h
      cases h2 : GetFileEntryName L s fe with
      | error e => rw [h2] at h; cases h
      | ok q =>
        rw [h2] at h
        simp only at h
        cases h3 : cString s.m_headerBytes q with
        | error e => rw [h3] at h; cases h
        | ok nm =>
          rw [h3] at h
          simp only at h
          split at h
          · injection h with h
            subst h
            exact ⟨i, q, nm, h1, h2, h3⟩
          · exact ih (i + 1) h

theorem GetFileEntryByName_sound (L : Layout) (s : RemoteNSP) (name : List Byte) (p : Nat)
    (h : GetFileEntryByName L s name = .ok (some p)) :
    ∃ j q nm, GetFileEntry L s j = .ok (some p) ∧ GetFileEntryName L s (some p) = .ok q ∧
      cString s.m_headerBytes q = .ok nm := by
  simp only [GetFileEntryByName, bind, Except.bind] at h
  cases h1 : GetBaseHeader s with
  | error e => rw [h1] at h; cases h
  | ok hdr =>
    rw [h1] at h
    simp only at h
    cases h2 : PFS0BaseHeader.numFiles s.m_headerBytes hdr with
    | error e => rw [h2] at h; cases h
    | ok n =>
      rw [h2] at h
      exact GetFileEntryByName_loop_sound L s name n 0 p h

theorem GetFileEntryByNcaId_sound (L : Layout) (s : RemoteNSP) (ncaId : NcmNcaId) (p : Nat)
    (h : GetFileEntryByNcaId L s ncaId = .ok (some p)) :
    ∃ j q nm, GetFileEntry L s j = .ok (some p) ∧ GetFileEntryName L s (some p) = .ok q ∧
      cString s.m_headerBytes q = .ok nm := by
  simp only [GetFileEntryByNcaId, bind, Except.bind] at h
  cases h1 : GetFileEntryByName L s (GetNcaIdString ncaId ++ ascii ".nca") with
  | error e => rw [h1] at h; cases h
  | ok r =>
    rw [h1] at h
    cases r with
    | some p1 =>
      simp at h
      subst h
      exact GetFileEntryByName_sound L s _ _ h1
    | none =>
      simp only [if_true] at h
      cases h2 : GetFileEntryByName L s (GetNcaIdString ncaId ++ ascii ".cnmt.nca") with
      | error e => rw [h2] at h; cases h
      | ok r2 =>
        rw [h2] at h
        cases r2 with
        | some p2 =>
          simp at h
          subst h
          exact GetFileEntryByName_sound L s _ _ h2
        | none => simp at h

/-- C10 as stated fails: `RetrieveHeader` on the remote `wrapArchive` leaves the
77-byte header of `wrapNSP`; there the content id `sampleId` resolves to the
entry at pointer 16, whose `dataOffset` is `2 ^ 64 - 1` and whose `fileSize`
is 5; `StreamToPlaceholder` issues the streaming read `(76, 5)`, and 76 is not
`77 + (2 ^ 64 - 1)`. -/
theorem StreamToPlaceholder_offset_wraps :
    RetrieveHeader Layout.packed ⟨⟨wrapArchive.serialize, [], []⟩, []⟩ = .ok wrapNSP ∧
    GetFileEntryByNcaId Layout.packed wrapNSP sampleId = .ok (some 16) ∧
    GetDataOffset wrapNSP = .ok 77 ∧
    PFS0FileEntry.dataOffset wrapNSP.m_headerBytes (some 16) = .ok 18446744073709551615 ∧
    PFS0FileEntry.fileSize wrapNSP.m_headerBytes (some 16) = .ok 5 ∧
    StreamToPlaceholder Layout.packed wrapNSP sampleId
      = .ok (⟨sampleId, 5⟩, ⟨76, 5⟩,
             ⟨⟨wrapArchive.serialize, [(0, 16), (16, 61)], [(76, 5)]⟩,
              wrapArchive.serialize⟩) ∧
    (76 : Nat) ≠ 77 + 18446744073709551615 := by
  decide

/-- C10, amended: when the content id resolves to the entry at pointer `p`,
`StreamToPlaceholder` constructs the writer with total size `fileSize` of that
entry and issues exactly one streaming read, of length `fileSize` and with
start offset the 64-bit sum `(GetDataOffset() + dataOffset) mod 2 ^ 64`, which
is `GetDataOffset() + dataOffset` whenever that sum is below `2 ^ 64`. -/
theorem StreamToPlaceholder_range (L : Layout) (hL : L.Valid) (s : RemoteNSP)
    (ncaId : NcmNcaId) (p : Nat) (hres : GetFileEntryByNcaId L s ncaId = .ok (some p)) :
    ∃ o d f,
      GetDataOffset s = .ok o ∧
      PFS0FileEntry.dataOffset s.m_headerBytes (some p) = .ok d ∧
      PFS0FileEntry.fileSize s.m_headerBytes (some p) = .ok f ∧
      StreamToPlaceholder L s ncaId
        = .ok (⟨ncaId, f⟩, ⟨(o + d) % SIZE_MOD, f⟩,
               { s with m_download :=
                  { s.m_download with
                    streams := s.m_download.streams ++ [((o + d) % SIZE_MOD, f)] } }) ∧
      (o + d < SIZE_MOD → (o + d) % SIZE_MOD = o + d) := by
  obtain ⟨j, q, nm, h1, h2, h3⟩ := GetFileEntryByNcaId_sound L s ncaId p hres
  have hb := GetFileEntry_ok_bound L hL s j p h1
  have h20 := hL.2.2.1
  have hne : s.m_headerBytes ≠ [] := by
    intro h
    rw [h] at hb
    simp at hb
    omega
  have hd : PFS0FileEntry.dataOffset s.m_headerBytes (some p)
      = .ok (leValue ((s.m_headerBytes.drop (p + 0)).take 8)) :=
    readField_some _ _ _ _ (by omega)
  have hf : PFS0FileEntry.fileSize s.m_headerBytes (some p)
      = .ok (leValue ((s.m_headerBytes.drop (p + 8)).take 8)) :=
    readField_some _ _ _ _ (by omega)
  have ho : GetDataOffset s = .ok s.m_headerBytes.length := by
    simp [GetDataOffset, hne]
  refine ⟨_, _, _, ho, hd, hf, ?_, fun h => Nat.mod_eq_of_lt h⟩
  simp only [StreamToPlaceholder, bind, Except.bind, hres, h2, h3, hf, ho, hd, CurlStreamFunc]

/-- The streaming set-up for the sample id on the sample header. -/
theorem StreamToPlaceholder_range_witness :
    Layout.packed.Valid ∧
    GetFileEntryByNcaId Layout.packed sampleNSP sampleId = .ok (some 40) ∧
    ∃ o d f,
      GetDataOffset sampleNSP = .ok o ∧
      PFS0FileEntry.dataOffset sampleNSP.m_headerBytes (some 40) = .ok d ∧
      PFS0FileEntry.fileSize sampleNSP.m_headerBytes (some 40) = .ok f ∧
      StreamToPlaceholder Layout.packed sampleNSP sampleId
        = .ok (⟨sampleId, f⟩, ⟨(o + d) % SIZE_MOD, f⟩,
               { sampleNSP with m_download :=
                  { sampleNSP.m_download with
                    streams := sampleNSP.m_download.streams ++ [((o + d) % SIZE_MOD, f)] } }) ∧
      (o + d < SIZE_MOD → (o + d) % SIZE_MOD = o + d) :=
  ⟨by decide, by decide,
   StreamToPlaceholder_range Layout.packed (by decide) sampleNSP sampleId 40 (by decide)⟩

/-! ## Unchecked name offsets and unchecked no-match -/

/-- C11, at two failing inputs.  `RetrieveHeader` succeeds on the remote
`strayArchive` and leaves a 42-byte header with one entry; `GetFileEntry(0)`
succeeds and `GetFileEntryName` returns the pointer at offset 140, outside the
buffer, so reading the name is an access outside it.  On the remote
`unterminatedArchive` the pointer, at offset 40, is inside the 42-byte buffer
but no zero byte follows it there, so the name read runs past the end of the
buffer. -/
theorem GetFileEntryName_outside_header :
    (RetrieveHeader Layout.packed strayFresh = .ok strayNSP ∧
      PFS0BaseHeader.numFiles strayNSP.m_headerBytes (some 0) = .ok 1 ∧
      GetFileEntry Layout.packed strayNSP 0 = .ok (some 16) ∧
      GetFileEntryName Layout.packed strayNSP (some 16) = .ok (some 140) ∧
      strayNSP.m_headerBytes.length = 42 ∧
      cString strayNSP.m_headerBytes (some 140) = .error .OutOfBoundsAccess ∧
      GetFileEntryByName Layout.packed strayNSP (ascii "a") = .error .OutOfBoundsAccess) ∧
    (RetrieveHeader Layout.packed unterminatedFresh = .ok unterminatedNSP ∧
      PFS0BaseHeader.numFiles unterminatedNSP.m_headerBytes (some 0) = .ok 1 ∧
      GetFileEntry Layout.packed unterminatedNSP 0 = .ok (some 16) ∧
      GetFileEntryName Layout.packed unterminatedNSP (some 16) = .ok (some 40) ∧
      unterminatedNSP.m_headerBytes.length = 42 ∧
      (0 : Byte) ∉ unterminatedNSP.m_headerBytes.drop 40 ∧
      cString unterminatedNSP.m_headerBytes (some 40) = .error .OutOfBoundsAccess ∧
      GetFileEntryByName Layout.packed unterminatedNSP (ascii "ab")
        = .error .OutOfBoundsAccess) := by
  refine ⟨⟨?_, ?_, ?_, ?_, ?_, ?_, ?_⟩, ⟨?_, ?_, ?_, ?_, ?_, ?_, ?_, ?_⟩⟩ <;> decide

/-- Whenever the lookup by content id returns no-match, `StreamToPlaceholder`
passes the null entry on to `GetFileEntryName`, which reads through it. -/
theorem StreamToPlaceholder_of_none (L : Layout) (s : RemoteNSP) (ncaId : NcmNcaId)
    (h : GetFileEntryByNcaId L s ncaId = .ok none) :
    StreamToPlaceholder L s ncaId = .error .NullDeref := by
  have hname : GetFileEntryName L s none = .error .NullDeref := by
    -- the lookup has read the file count, so `GetFileEntryName` gets as far as the entry
    simp only [GetFileEntryByNcaId, GetFileEntryByName, bind, Except.bind] at h
    simp only [GetFileEntryName, bind, Except.bind]
    cases h1 : GetBaseHeader s with
    | error e => rw [h1] at h; cases h
    | ok hdr =>
      rw [h1] at h
      simp only at h ⊢
      cases h2 : PFS0BaseHeader.numFiles s.m_headerBytes hdr with
      | error e => rw [h2] at h; cases h
      | ok n => rfl
  simp only [StreamToPlaceholder, bind, Except.bind, h, hname]

/-- C12, at a failing input.  On the header `RetrieveHeader` leaves on the
sample remote, the content id `absentId` names no entry:
`GetFileEntryByNcaId` returns no-match, and `StreamToPlaceholder`, which does
not test the result, reads the name of the null entry through
`GetFileEntryName`. -/
theorem StreamToPlaceholder_null_entry :
    RetrieveHeader Layout.packed sampleFresh = .ok sampleRetrieved ∧
    GetFileEntryByNcaId Layout.packed sampleRetrieved absentId = .ok none ∧
    GetFileEntryName Layout.packed sampleRetrieved none = .error .NullDeref ∧
    StreamToPlaceholder Layout.packed sampleRetrieved absentId = .error .NullDeref :=
  ⟨by decide, by decide, by decide,
   StreamToPlaceholder_of_none Layout.packed sampleRetrieved absentId (by decide)⟩

/-! ## The scans after a successful retrieval -/

/-- After a successful `RetrieveHeader` the buffer is exactly as long as its
own base header announces. -/
theorem RetrieveHeader_ok_length (L : Layout) (hL : L.Valid) (s s' : RemoteNSP)
    (hret : RetrieveHeader L s = .ok s') :
    s'.m_headerBytes.length
      = L.headerFixedSize + numFilesOf s'.m_headerBytes * L.entrySize
          + stringTableSizeOf s'.m_headerBytes := by
  have h12 := hL.1
  rw [RetrieveHeader_eq L hL] at hret
  split at hret
  · split at hret
    · rename_i hh hfull
      injection hret with hret
      subst hret
      simp only
      rw [numFilesOf_take _ _ (by omega), stringTableSizeOf_take _ _ (by omega),
        List.length_take]
      omega
    · cases hret
  · cases hret

theorem readField_error (buf : List Byte) (p : Ptr) (off w : Nat) (err : Error)
    (h : readField buf p off w = .error err) : err ≠ .OutOfRange ∧ err ≠ .Corrupt := by
  cases p with
  | none =>
    simp only [readField] at h
    injection h with h; subst h; simp
  | some a =>
    simp only [readField] at h
    split at h
    · cases h
    · injection h with h; subst h; simp

theorem GetBaseHeader_error (s : RemoteNSP) (err : Error)
    (h : GetBaseHeader s = .error err) : err ≠ .OutOfRange ∧ err ≠ .Corrupt := by
  simp only [GetBaseHeader] at h
  split at h
  · injection h with h; subst h; simp
  · cases h

theorem GetFileEntryName_error (L : Layout) (s : RemoteNSP) (p : Ptr) (err : Error)
    (h : GetFileEntryName L s p = .error err) :
    err ≠ .OutOfRange ∧ err ≠ .Corrupt := by
  simp only [GetFileEntryName, bind, Except.bind] at h
  cases h1 : GetBaseHeader s with
  | error e =>
    rw [h1] at h
    injection h with h
    subst h
    exact GetBaseHeader_error s _ h1
  | ok hdr =>
    rw [h1] at h
    simp only at h
    cases h2 : PFS0BaseHeader.numFiles s.m_headerBytes hdr with
    | error e =>
      rw [h2] at h
      injection h with h
      subst h
      exact readField_error _ _ _ _ _ h2
    | ok n =>
      rw [h2] at h
      simp only at h
      cases h3 : PFS0FileEntry.stringTableOffset s.m_headerBytes p with
      | error e =>
        rw [h3] at h
        injection h with h
        subst h
        exact readField_error _ _ _ _ _ h3
      | ok v => rw [h3] at h; cases h

theorem cString_error (buf : List Byte) (p : Ptr) (err : Error)
    (h : cString buf p = .error err) : err ≠ .OutOfRange ∧ err ≠ .Corrupt := by
  cases p with
  | none => simp [cString] at h; subst h; simp
  | some a =>
    simp only [cString] at h
    split at h
    · cases h
    · injection h with h; subst h; simp

theorem substr_error (str : List Byte) (pos : Nat) (err : Error)
    (h : substr str pos = .error err) : err ≠ .OutOfRange ∧ err ≠ .Corrupt := by
  simp only [substr] at h
  split at h
  · injection h with h; subst h; simp
  · cases h

theorem GetFileEntryByName_loop_no_range_error (L : Layout) (s : RemoteNSP) (name : List Byte)
    (n : Nat) (hge : ∀ i < n, ∃ p, GetFileEntry L s i = .ok p) (fuel i : Nat)
    (hbound : i + fuel ≤ n) (err : Error)
    (h : GetFileEntryByName.loop L s name fuel i = .error err) :
    err ≠ .OutOfRange ∧ err ≠ .Corrupt := by
  induction fuel generalizing i with
  | zero => cases h
  | succ fuel ih =>
    obtain ⟨p, hp⟩ := hge i (by omega)
    simp only [GetFileEntryByName.loop, bind, Except.bind, hp] at h
    cases h2 : GetFileEntryName L s p with
    | error e =>
      rw [h2] at h
      injection h with h
      subst h
      exact GetFileEntryName_error L s p _ h2
    | ok q =>
      rw [h2] at h
      simp only at h
      cases h3 : cString s.m_headerBytes q with
      | error e =>
        rw [h3] at h
        injection h with h
        subst h
        exact cString_error _ _ _ h3
      | ok nm =>
        rw [h3] at h
        simp only at h
        split at h
        · cases h
        · exact ih (i + 1) (by omega) h

theorem GetFileEntryByExtension_loop_no_range_error (L : Layout) (s : RemoteNSP)
    (ext : List Byte) (n : Nat) (hge : ∀ i < n, ∃ p, GetFileEntry L s i = .ok p)
    (fuel i : Nat) (hbound : i + fuel ≤ n) (err : Error)
    (h : GetFileEntryByExtension.loop L s ext fuel i = .error err) :
    err ≠ .OutOfRange ∧ err ≠ .Corrupt := by
  induction fuel generalizing i with
  | zero => cases h
  | succ fuel ih =>
    obtain ⟨p, hp⟩ := hge i (by omega)
    simp only [GetFileEntryByExtension.loop, bind, Except.bind, hp] at h
    cases h2 : GetFileEntryName L s p with
    | error e =>
      rw [h2] at h
      injection h with h
      subst h
      exact GetFileEntryName_error L s p _ h2
    | ok q =>
      rw [h2] at h
      simp only at h
      cases h3 : cString s.m_headerBytes q with
      | error e =>
        rw [h3] at h
        injection h with h
        subst h
        exact cString_error _ _ _ h3
      | ok nm =>
        rw [h3] at h
        simp only at h
        cases h4 : substr nm ((find nm DOT + 1) % SIZE_MOD) with
        | error e =>
          rw [h4] at h
          injection h with h
          subst h
          exact substr_error _ _ _ h4
        | ok found =>
          rw [h4] at h
          simp only at h
          split at h
          · cases h
          · exact ih (i + 1) (by omega) h

/-- C15: after a successful `RetrieveHeader` the buffer length is
`headerFixedSize + numFiles * entrySize + stringTableSize`, so
`GetFileEntry(i)` succeeds for every `i < numFiles` and its too-small branch is
reached for no index at all; hence neither `GetFileEntryByName` nor
`GetFileEntryByExtension` raises the out-of-range or the too-small error,
their loops passing only indices below `numFiles`. -/
theorem scans_after_RetrieveHeader (L : Layout) (hL : L.Valid) (s s' : RemoteNSP)
    (hret : RetrieveHeader L s = .ok s') :
    PFS0BaseHeader.numFiles s'.m_headerBytes (some 0) = .ok (numFilesOf s'.m_headerBytes) ∧
    s'.m_headerBytes.length
      = L.headerFixedSize + numFilesOf s'.m_headerBytes * L.entrySize
          + stringTableSizeOf s'.m_headerBytes ∧
    (∀ i < numFilesOf s'.m_headerBytes,
      GetFileEntry L s' i = .ok (some (L.headerFixedSize + i * L.entrySize))) ∧
    (∀ i, GetFileEntry L s' i ≠ .error .Corrupt) ∧
    (∀ name, GetFileEntryByName L s' name ≠ .error .OutOfRange ∧
      GetFileEntryByName L s' name ≠ .error .Corrupt) ∧
    (∀ ext, GetFileEntryByExtension L s' ext ≠ .error .OutOfRange ∧
      GetFileEntryByExtension L s' ext ≠ .error .Corrupt) ∧
    (∀ name fuel i, i + fuel ≤ numFilesOf s'.m_headerBytes →
      GetFileEntryByName.loop L s' name fuel i ≠ .error .OutOfRange ∧
      GetFileEntryByName.loop L s' name fuel i ≠ .error .Corrupt) ∧
    (∀ ext fuel i, i + fuel ≤ numFilesOf s'.m_headerBytes →
      GetFileEntryByExtension.loop L s' ext fuel i ≠ .error .OutOfRange ∧
      GetFileEntryByExtension.loop L s' ext fuel i ≠ .error .Corrupt) := by
  have hlen := RetrieveHeader_ok_length L hL s s' hret
  have h12 := hL.1
  have h8 : 8 ≤ s'.m_headerBytes.length := by omega
  have hne := ne_nil_of_le_length _ h8
  have hn := numFiles_eq _ h8
  have hentry : ∀ i < numFilesOf s'.m_headerBytes,
      GetFileEntry L s' i = .ok (some (L.headerFixedSize + i * L.entrySize)) := by
    intro i hi
    have : (i + 1) * L.entrySize ≤ numFilesOf s'.m_headerBytes * L.entrySize :=
      Nat.mul_le_mul_right L.entrySize hi
    rw [GetFileEntry_eq L hL s' i h8, if_neg (by omega), if_neg (by omega)]
  have hsome : ∀ i < numFilesOf s'.m_headerBytes, ∃ p, GetFileEntry L s' i = .ok p :=
    fun i hi => ⟨_, hentry i hi⟩
  have hloopN : ∀ name fuel i, i + fuel ≤ numFilesOf s'.m_headerBytes →
      GetFileEntryByName.loop L s' name fuel i ≠ .error .OutOfRange ∧
      GetFileEntryByName.loop L s' name fuel i ≠ .error .Corrupt := by
    intro name fuel i hb
    constructor
    · intro h
      exact (GetFileEntryByName_loop_no_range_error L s' name _ hsome fuel i hb _ h).1 rfl
    · intro h
      exact (GetFileEntryByName_loop_no_range_error L s' name _ hsome fuel i hb _ h).2 rfl
  have hloopE : ∀ ext fuel i, i + fuel ≤ numFilesOf s'.m_headerBytes →
      GetFileEntryByExtension.loop L s' ext fuel i ≠ .error .OutOfRange ∧
      GetFileEntryByExtension.loop L s' ext fuel i ≠ .error .Corrupt := by
    intro ext fuel i hb
    constructor
    · intro h
      exact (GetFileEntryByExtension_loop_no_range_error L s' ext _ hsome fuel i hb _ h).1 rfl
    · intro h
      exact (GetFileEntryByExtension_loop_no_range_error L s' ext _ hsome fuel i hb _ h).2 rfl
  refine ⟨hn, hlen, hentry, ?_, ?_, ?_, hloopN, hloopE⟩
  · intro i h
    rw [GetFileEntry_eq L hL s' i h8] at h
    split at h
    · cases h
    · rename_i hi
      have : (i + 1) * L.entrySize ≤ numFilesOf s'.m_headerBytes * L.entrySize :=
        Nat.mul_le_mul_right L.entrySize (by omega)
      rw [if_neg (by omega)] at h
      cases h
  · intro name
    have e : GetFileEntryByName L s' name
        = GetFileEntryByName.loop L s' name (numFilesOf s'.m_headerBytes) 0 := by
      simp only [GetFileEntryByName, bind, Except.bind, GetBaseHeader_of_ne_nil s' hne, hn]
    rw [e]
    exact hloopN name _ 0 (by omega)
  · intro ext
    have e : GetFileEntryByExtension L s' ext
        = GetFileEntryByExtension.loop L s' ext (numFilesOf s'.m_headerBytes) 0 := by
      simp only [GetFileEntryByExtension, bind, Except.bind, GetBaseHeader_of_ne_nil s' hne, hn]
    rw [e]
    exact hloopE ext _ 0 (by omega)

/-- The retrieval of the sample header, and the scans on it. -/
theorem scans_after_RetrieveHeader_witness :
    Layout.packed.Valid ∧ RetrieveHeader Layout.packed sampleFresh = .ok sampleRetrieved ∧
    (∀ i < 4, GetFileEntry Layout.packed sampleRetrieved i = .ok (some (16 + i * 24))) ∧
    (∀ name, GetFileEntryByName Layout.packed sampleRetrieved name ≠ .error .OutOfRange ∧
      GetFileEntryByName Layout.packed sampleRetrieved name ≠ .error .Corrupt) ∧
    (∀ ext, GetFileEntryByExtension Layout.packed sampleRetrieved ext ≠ .error .OutOfRange ∧
      GetFileEntryByExtension Layout.packed sampleRetrieved ext ≠ .error .Corrupt) :=
  ⟨by decide, by decide,
   (scans_after_RetrieveHeader Layout.packed (by decide) sampleFresh sampleRetrieved
     (by decide)).2.2.1,
   (scans_after_RetrieveHeader Layout.packed (by decide) sampleFresh sampleRetrieved
     (by decide)).2.2.2.2.1,
   (scans_after_RetrieveHeader Layout.packed (by decide) sampleFresh sampleRetrieved
     (by decide)).2.2.2.2.2.1⟩

/-! ## Names without an extension -/

theorem afterFirstDot_of_not_mem (name : List Byte) (h : DOT ∉ name) :
    afterFirstDot name = name := by
  unfold afterFirstDot
  rw [if_neg h]

theorem dropWhile_stem_dot (stem : List Byte) (h : DOT ∉ stem) :
    (stem ++ [DOT]).dropWhile (fun b => b ≠ DOT) = [DOT] := by
  induction stem with
  | nil => simp [List.dropWhile_cons]
  | cons b bs ih =>
    have hb : b ≠ DOT := fun hb => h (by simp [hb])
    have hbs : DOT ∉ bs := fun hbs => h (by simp [hbs])
    rw [List.cons_append, List.dropWhile_cons_of_pos (by simpa using hb), ih hbs]

theorem afterFirstDot_stem_dot (stem : List Byte) (h : DOT ∉ stem) :
    afterFirstDot (stem ++ [DOT]) = [] := by
  unfold afterFirstDot
  rw [if_pos (by simp), dropWhile_stem_dot stem h]
  rfl

/-- On a well-formed header, `GetFileEntryByExtension(ext)` returns the pointer
to entry `i` exactly when entry `i` is the first whose suffix equals `ext`. -/
theorem GetFileEntryByExtension_eq_entry_iff (L : Layout) (hL : L.Valid) (s : RemoteNSP)
    (hwf : WellFormed L s.m_headerBytes) (hsz : s.m_headerBytes.length < NPOS)
    (ext : List Byte) (i : Nat) (hi : i < numFilesOf s.m_headerBytes)
    (hmin : ∀ j < i, afterFirstDot (nameOf L s.m_headerBytes j) ≠ ext) :
    GetFileEntryByExtension L s ext = .ok (some (L.headerFixedSize + i * L.entrySize)) ↔
      afterFirstDot (nameOf L s.m_headerBytes i) = ext := by
  have hstep := fun fuel j hj => GetFileEntryByExtension_loop_step L hL s hwf hsz ext fuel j hj
  rw [GetFileEntryByExtension_eq_loop L hL s hwf ext]
  constructor
  · intro h
    rcases scan_total (GetFileEntryByExtension.loop L s ext)
      (fun j => afterFirstDot (nameOf L s.m_headerBytes j) = ext)
      (fun j => L.headerFixedSize + j * L.entrySize)
      (numFilesOf s.m_headerBytes) (fun i => rfl) hstep
      (numFilesOf s.m_headerBytes) 0 (by omega) with h0 | ⟨j, -, -, hj, -, h5⟩
    · rw [h0] at h; cases h
    · rw [h5] at h
      injection h with h
      injection h with h
      have he : 0 < L.entrySize := by have := hL.2.2.1; omega
      have hji : j = i := Nat.eq_of_mul_eq_mul_right he (by omega)
      rw [← hji]
      exact hj
  · intro h
    exact (scan_spec (GetFileEntryByExtension.loop L s ext)
      (fun j => afterFirstDot (nameOf L s.m_headerBytes j) = ext)
      (fun j => L.headerFixedSize + j * L.entrySize)
      (numFilesOf s.m_headerBytes) (fun i => rfl) hstep
      (numFilesOf s.m_headerBytes) 0 (by omega)).2 i (Nat.zero_le i) (by omega) h
      (fun k _ hk => hmin k hk)

/-- C16: on a well-formed retrieved header, for an entry `i` whose name holds
no `'.'`, `find` returns `npos`, `npos + 1` wraps to 0 and `substr(0)` is the
whole name, so iteration `i` of `GetFileEntryByExtension(ext)` returns the
entry exactly when `ext` is the entire name; and for an entry whose name ends
at its first `'.'` the compared suffix is empty, so it is returned exactly when
`ext` is the empty string.  In both cases, when no earlier entry matches,
`GetFileEntryByExtension(ext)` returns entry `i` if and only if that
comparison succeeds. -/
theorem GetFileEntryByExtension_dotless (L : Layout) (hL : L.Valid) (s : RemoteNSP)
    (hwf : WellFormed L s.m_headerBytes) (hsz : s.m_headerBytes.length < NPOS)
    (ext : List Byte) (i : Nat) (hi : i < numFilesOf s.m_headerBytes) :
    (DOT ∉ nameOf L s.m_headerBytes i →
      find (nameOf L s.m_headerBytes i) DOT = NPOS ∧
      (NPOS + 1) % SIZE_MOD = 0 ∧
      substr (nameOf L s.m_headerBytes i) ((find (nameOf L s.m_headerBytes i) DOT + 1) % SIZE_MOD)
        = .ok (nameOf L s.m_headerBytes i) ∧
      (∀ fuel, GetFileEntryByExtension.loop L s ext (fuel + 1) i =
        if nameOf L s.m_headerBytes i = ext then
          .ok (some (L.headerFixedSize + i * L.entrySize))
        else GetFileEntryByExtension.loop L s ext fuel (i + 1)) ∧
      ((∀ j < i, afterFirstDot (nameOf L s.m_headerBytes j) ≠ ext) →
        (GetFileEntryByExtension L s ext
            = .ok (some (L.headerFixedSize + i * L.entrySize)) ↔
          ext = nameOf L s.m_headerBytes i))) ∧
    (∀ stem, nameOf L s.m_headerBytes i = stem ++ [DOT] → DOT ∉ stem →
      substr (nameOf L s.m_headerBytes i) ((find (nameOf L s.m_headerBytes i) DOT + 1) % SIZE_MOD)
        = .ok [] ∧
      (∀ fuel, GetFileEntryByExtension.loop L s ext (fuel + 1) i =
        if [] = ext then
          .ok (some (L.headerFixedSize + i * L.entrySize))
        else GetFileEntryByExtension.loop L s ext fuel (i + 1)) ∧
      ((∀ j < i, afterFirstDot (nameOf L s.m_headerBytes j) ≠ ext) →
        (GetFileEntryByExtension L s ext
            = .ok (some (L.headerFixedSize + i * L.entrySize)) ↔
          ext = []))) := by
  have hlen : (nameOf L s.m_headerBytes i).length < NPOS :=
    lt_of_le_of_lt (nameOf_length_le L s.m_headerBytes i) hsz
  have hsub := substr_find_dot (nameOf L s.m_headerBytes i) hlen
  have hstep := fun fuel => GetFileEntryByExtension_loop_step L hL s hwf hsz ext fuel i hi
  constructor
  · intro hdot
    have haf := afterFirstDot_of_not_mem _ hdot
    rw [haf] at hsub
    refine ⟨?_, by decide, hsub, ?_, ?_⟩
    · unfold find
      rw [if_neg hdot]
    · intro fuel
      rw [hstep fuel, haf]
    · intro hmin
      rw [GetFileEntryByExtension_eq_entry_iff L hL s hwf hsz ext i hi hmin, haf]
      exact eq_comm
  · intro stem hname hstem
    have haf : afterFirstDot (nameOf L s.m_headerBytes i) = [] := by
      rw [hname]
      exact afterFirstDot_stem_dot stem hstem
    rw [haf] at hsub
    refine ⟨hsub, ?_, ?_⟩
    · intro fuel
      rw [hstep fuel, haf]
    · intro hmin
      rw [GetFileEntryByExtension_eq_entry_iff L hL s hwf hsz ext i hi hmin, haf]
      exact eq_comm

/-- The entries `abc` and `abc.` of the header `dotArchive`: the first is found
for the extension `abc`, the second for the empty extension, and `abc.` is the
extension of no entry. -/
theorem GetFileEntryByExtension_dotless_witness :
    Layout.packed.Valid ∧ WellFormed Layout.packed dotNSP.m_headerBytes ∧
    dotNSP.m_headerBytes.length < NPOS ∧
    nameOf Layout.packed dotNSP.m_headerBytes 1 = ascii "abc" ∧
    nameOf Layout.packed dotNSP.m_headerBytes 2 = ascii "abc" ++ [DOT] ∧
    GetFileEntryByExtension Layout.packed dotNSP (ascii "abc") = .ok (some (16 + 1 * 24)) ∧
    GetFileEntryByExtension Layout.packed dotNSP [] = .ok (some (16 + 2 * 24)) ∧
    GetFileEntryByExtension Layout.packed dotNSP (ascii "abc.") = .ok none :=
  ⟨by decide, by decide, by decide, by decide, by decide,
   (((GetFileEntryByExtension_dotless Layout.packed (by decide) dotNSP (by decide) (by decide)
      (ascii "abc") 1 (by decide)).1 (by decide)).2.2.2.2 (by decide)).mpr (by decide),
   (((GetFileEntryByExtension_dotless Layout.packed (by decide) dotNSP (by decide) (by decide)
      [] 2 (by decide)).2 (ascii "abc") (by decide) (by decide)).2.2 (by decide)).mpr rfl,
   by decide⟩

/-! ## The producer callback -/

/-- The polling loop either reaches its `break` at the first poll answered
true, having recorded only polls, or is still polling with every answer so far
false. -/
theorem streamFunc_wait_spec (canAppendData : Nat → Nat → Bool) (n fuel k : Nat) :
    (∃ m, m < fuel ∧ canAppendData (k + m) n = true ∧
        (∀ j < m, canAppendData (k + j) n = false) ∧
        streamFunc.wait canAppendData n fuel k
          = (List.replicate m (.CanAppendData n false) ++ [.CanAppendData n true], true)) ∨
    ((∀ j < fuel, canAppendData (k + j) n = false) ∧
      streamFunc.wait canAppendData n fuel k
        = (List.replicate fuel (.CanAppendData n false), false)) := by
  induction fuel generalizing k with
  | zero =>
    right
    exact ⟨fun j hj => absurd hj (Nat.not_lt_zero j), rfl⟩
  | succ fuel ih =>
    by_cases hk : canAppendData k n = true
    · left
      refine ⟨0, Nat.succ_pos fuel, by simpa using hk, fun j hj => absurd hj (Nat.not_lt_zero j), ?_⟩
      simp [streamFunc.wait, hk]
    · have hkf : canAppendData k n = false := by simpa using hk
      rcases ih (k + 1) with ⟨m, hm, ht, hf, hw⟩ | ⟨hf, hw⟩
      · left
        refine ⟨m + 1, by omega, ?_, ?_, ?_⟩
        · rw [← ht]; congr 1; omega
        · intro j hj
          cases j with
          | zero => simpa using hkf
          | succ j =>
            rw [← hf j (by omega)]; congr 1; omega
        · simp [streamFunc.wait, hkf, hw, List.replicate_succ]
      · right
        refine ⟨?_, ?_⟩
        · intro j hj
          cases j with
          | zero => simpa using hkf
          | succ j =>
            rw [← hf j (by omega)]; congr 1; omega
        · simp [streamFunc.wait, hkf, hw, List.replicate_succ]

/-- The callback as a whole: the two possible shapes of a run. -/
theorem streamFunc_spec (canAppendData : Nat → Nat → Bool) (streamBuf : List Byte)
    (n fuel : Nat) :
    (∃ m, m < fuel ∧ canAppendData m n = true ∧ (∀ j < m, canAppendData j n = false) ∧
        streamFunc canAppendData streamBuf n fuel
          = (List.replicate m (.CanAppendData n false)
              ++ [.CanAppendData n true, .AppendData streamBuf n], some n)) ∨
    ((∀ j < fuel, canAppendData j n = false) ∧
      streamFunc canAppendData streamBuf n fuel
        = (List.replicate fuel (.CanAppendData n false), none)) := by
  rcases streamFunc_wait_spec canAppendData n fuel 0 with ⟨m, hm, ht, hf, hw⟩ | ⟨hf, hw⟩
  · left
    refine ⟨m, hm, by simpa using ht, fun j hj => by simpa using hf j hj, ?_⟩
    simp [streamFunc, hw]
  · right
    refine ⟨fun j hj => by simpa using hf j hj, ?_⟩
    simp [streamFunc, hw]

theorem getElem?_replicate_append_pair (c a b : WriterCall) (m i : Nat) :
    (List.replicate m c ++ [a, b])[i]? =
      if i < m then some c else if i = m then some a else if i = m + 1 then some b
      else none := by
  by_cases h1 : i < m
  · rw [if_pos h1, List.getElem?_append_left (by simpa using h1), List.getElem?_replicate,
      if_pos h1]
  · rw [if_neg h1, List.getElem?_append_right (by simpa using h1), List.length_replicate]
    by_cases h2 : i = m
    · rw [if_pos h2, h2]; simp
    · rw [if_neg h2]
      by_cases h3 : i = m + 1
      · rw [if_pos h3, h3]; simp
      · rw [if_neg h3]
        have : i - m = (i - m - 2) + 2 := by omega
        rw [this]
        rfl

/-- C13: for every chunk `(streamBuf, n)` and whatever `CanAppendData`
answers, a run of the callback is either still polling, every answer so far
false and no `AppendData` call made, or has the calls: polls answered false,
the poll answered true, then `AppendData(streamBuf, n)`, and the return value
`n`.  So `AppendData` is called with that buffer and size only, directly after
a `CanAppendData(n)` that returned true, at most once, and exactly once in a
run that has returned; and the callback returns as soon as one poll is
answered true. -/
theorem streamFunc_calls (canAppendData : Nat → Nat → Bool) (streamBuf : List Byte)
    (n fuel : Nat) :
    ((∃ m, m < fuel ∧ canAppendData m n = true ∧ (∀ j < m, canAppendData j n = false) ∧
        streamFunc canAppendData streamBuf n fuel
          = (List.replicate m (.CanAppendData n false)
              ++ [.CanAppendData n true, .AppendData streamBuf n], some n)) ∨
      ((∀ j < fuel, canAppendData j n = false) ∧
        streamFunc canAppendData streamBuf n fuel
          = (List.replicate fuel (.CanAppendData n false), none))) ∧
    (∀ i data size,
      (streamFunc canAppendData streamBuf n fuel).1[i]? = some (.AppendData data size) →
      data = streamBuf ∧ size = n ∧ 1 ≤ i ∧
        (streamFunc canAppendData streamBuf n fuel).1[i - 1]? = some (.CanAppendData n true)) ∧
    (streamFunc canAppendData streamBuf n fuel).1.count (.AppendData streamBuf n) ≤ 1 ∧
    (∀ r, (streamFunc canAppendData streamBuf n fuel).2 = some r →
      r = n ∧
        (streamFunc canAppendData streamBuf n fuel).1.count (.AppendData streamBuf n) = 1) ∧
    (∀ m, canAppendData m n = true → ∀ fuel', m < fuel' →
      (streamFunc canAppendData streamBuf n fuel').2 = some n) := by
  have hshape := streamFunc_spec canAppendData streamBuf n fuel
  refine ⟨hshape, ?_, ?_, ?_, ?_⟩
  · intro i data size hi
    rcases hshape with ⟨m, -, -, -, hrun⟩ | ⟨-, hrun⟩
    · rw [hrun] at hi ⊢
      simp only at hi ⊢
      rw [getElem?_replicate_append_pair] at hi ⊢
      by_cases h1 : i < m
      · rw [if_pos h1] at hi; cases hi
      · rw [if_neg h1] at hi
        by_cases h2 : i = m
        · rw [if_pos h2] at hi; cases hi
        · rw [if_neg h2] at hi
          by_cases h3 : i = m + 1
          · rw [if_pos h3] at hi
            injection hi with hi
            injection hi with hd hs
            refine ⟨hd.symm, hs.symm, by omega, ?_⟩
            rw [if_neg (by omega), if_pos (by omega)]
          · rw [if_neg h3] at hi; cases hi
    · rw [hrun] at hi
      simp only [List.getElem?_replicate] at hi
      split at hi <;> cases hi
  · rcases hshape with ⟨m, -, -, -, hrun⟩ | ⟨-, hrun⟩
    · rw [hrun]
      simp [List.count_append, List.count_replicate, List.count_cons]
    · rw [hrun]
      simp [List.count_replicate]
  · intro r hr
    rcases hshape with ⟨m, -, -, -, hrun⟩ | ⟨-, hrun⟩
    · rw [hrun] at hr ⊢
      simp only [Option.some.injEq] at hr
      refine ⟨hr.symm, ?_⟩
      simp [List.count_append, List.count_replicate, List.count_cons]
    · rw [hrun] at hr
      cases hr
  · intro m hm fuel' hlt
    rcases streamFunc_spec canAppendData streamBuf n fuel' with ⟨m', -, -, -, hrun⟩ | ⟨hf, -⟩
    · rw [hrun]
    · rw [hf m hlt] at hm
      cases hm

/-- A chunk of three bytes when the third poll is the first answered true: two
polls answered false, the poll answered true, the append, and the return value
3; after two polls the callback is still waiting and has not appended. -/
theorem streamFunc_calls_witness :
    streamFunc (fun k _ => decide (k = 2)) [1, 2, 3] 3 5
      = ([.CanAppendData 3 false, .CanAppendData 3 false, .CanAppendData 3 true,
          .AppendData [1, 2, 3] 3], some 3) ∧
    streamFunc (fun k _ => decide (k = 2)) [1, 2, 3] 3 2
      = ([.CanAppendData 3 false, .CanAppendData 3 false], none) ∧
    (streamFunc (fun k _ => decide (k = 2)) [1, 2, 3] 3 5).2 = some 3 :=
  ⟨by decide, by decide,
   (streamFunc_calls (fun k _ => decide (k = 2)) [1, 2, 3] 3 0).2.2.2.2 2 (by decide) 5
     (by decide)⟩

/-! ## The consumer loop -/

end tin.install.nsp
